import Mathlib

/-!
Verification of the `RepositorySearchEngine` from
`apps/web/src/features/search/repository-search-engine.ts`.

The engine is a BM25-variant in-memory search index.  We embed it shallowly:

* JavaScript `Map` objects become insertion-ordered association lists
  (`JMap α := List (String × α)`); `Map.set` updates in place when the key is
  present (keeping its position) and appends otherwise, exactly like the JS
  semantics.  JavaScript `Set<string>` becomes an insertion-ordered duplicate
  free list.
* JavaScript numbers are modelled with exact arithmetic: quantities that stay
  rational in the source (field weights, document lengths, corpus lengths) use
  `ℚ`, and the score values (which involve `Math.log`) use `ℝ` with
  `Real.log`.
* The mutable `RepositorySearchEngine` instance becomes an explicit
  `EngineState` value threaded through the operations; the immutable
  configuration is a separate `EngineConfig` argument.
* The `throw new Error(...)` in `search` is modelled with `Except String`.
-/

namespace RepoSearch

/-- The repository record consumed by the engine
(`StarredRepository` from `packages/api/src/services/github.ts`).
Only the four text fields participate in indexing; the remaining metadata
(star counts, timestamps) is carried through opaquely and is omitted here. -/
structure StarredRepository where
  owner : String
  name : String
  description : Option String
  readme : Option String
deriving DecidableEq

/-- A JavaScript `Map<string, α>`: an insertion-ordered association list. -/
abbrev JMap (α : Type) : Type := List (String × α)

/-- `Map.get`: the value of the first (unique) entry with the given key. -/
def mapGet {α : Type} : JMap α → String → Option α
  | [], _ => none
  | (k', v) :: m, k => if k' = k then some v else mapGet m k

/-- `Map.set`: replace the value in place when the key is present (keeping its
position), append a new entry otherwise. -/
def mapSet {α : Type} : JMap α → String → α → JMap α
  | [], k, v => [(k, v)]
  | (k', v') :: m, k, v =>
    if k' = k then (k, v) :: m else (k', v') :: mapSet m k v

/-- `Map.has`. -/
def mapHas {α : Type} (m : JMap α) (k : String) : Bool :=
  (mapGet m k).isSome

/-- The keys of a map in insertion order. -/
def mapKeys {α : Type} (m : JMap α) : List String :=
  m.map Prod.fst

/-- `Set.add` on a JavaScript `Set<string>`: append unless already present. -/
def setAdd (s : List String) (x : String) : List String :=
  if x ∈ s then s else s ++ [x]

/-- A character kept by the tokenizer: the regex class `[a-z0-9]`. -/
def isTokenChar (c : Char) : Bool :=
  ('a' ≤ c && c ≤ 'z') || ('0' ≤ c && c ≤ '9')

/-- Splitting a (lowercased) character stream into maximal runs of
`[a-z0-9]`, mirroring `lowered.match(/[a-z0-9]+/g)`.  `cur` holds the
characters of the current run in reverse. -/
def tokenizeChars : List Char → List Char → List String
  | [], cur => if cur.isEmpty then [] else [String.mk cur.reverse]
  | c :: cs, cur =>
    if isTokenChar c then tokenizeChars cs (c :: cur)
    else if cur.isEmpty then tokenizeChars cs cur
    else String.mk cur.reverse :: tokenizeChars cs []

/-- All tokens of a string: lowercase, then match maximal `[a-z0-9]` runs. -/
def tokenizeAll (value : String) : List String :=
  tokenizeChars (value.toList.map Char.toLower) []

/-- `tokenize(value, limit?)`.  `limit : Option ℕ` models the optional
`number` argument; `none` covers both `undefined` and the (infinite) default
readme limit, and a present `limit` is falsy when it is `0`. -/
def tokenize (value : String) (limit : Option Nat) : List String :=
  let tokens := tokenizeAll value
  match limit with
  | none => tokens
  | some n => if n ≠ 0 ∧ n < tokens.length then tokens.take n else tokens

/-- Drop leading whitespace characters. -/
def dropLeadingWhitespace : List Char → List Char
  | [] => []
  | c :: cs => if c.isWhitespace then dropLeadingWhitespace cs else c :: cs

/-- JavaScript `String.prototype.trim()`: strip whitespace at both ends. -/
def trimString (s : String) : String :=
  String.mk
    ((dropLeadingWhitespace
        (dropLeadingWhitespace s.toList).reverse).reverse)

/-- Helper of `uniqueTokens`: keep the first occurrence of each string,
`seen` being the set of strings already emitted. -/
def dedupSeen : List String → List String → List String
  | [], _ => []
  | t :: ts, seen =>
    if t ∈ seen then dedupSeen ts seen else t :: dedupSeen ts (t :: seen)

/-- `uniqueTokens`: insertion into a `Set` and conversion back to an array,
i.e. first occurrences in order. -/
def uniqueTokens (tokens : List String) : List String :=
  dedupSeen tokens []

/-- `buildRepositoryId`. -/
def buildRepositoryId (repository : StarredRepository) : String :=
  repository.owner ++ "/" ++ repository.name

/-- The keyword-collection loop of `normalizeKeywords`: trim each keyword,
skip empties, flatten the tokens, and break once `limit` (when truthy) many
tokens have been collected. -/
def collectKeywords (limit : Nat) : List String → List String → List String
  | [], collected => collected
  | keyword :: rest, collected =>
    let trimmed := trimString keyword
    if trimmed.length = 0 then collectKeywords limit rest collected
    else
      let collected' := collected ++ tokenize trimmed none
      if limit ≠ 0 ∧ limit ≤ collected'.length then collected'
      else collectKeywords limit rest collected'

/-- `normalizeKeywords(keywords, limit)`: collect, truncate to `limit`
(when truthy), then deduplicate. -/
def normalizeKeywords (keywords : List String) (limit : Nat) : List String :=
  let collected := collectKeywords limit keywords []
  uniqueTokens (if limit ≠ 0 then collected.take limit else collected)

/-- The engine configuration (`EngineConfig`); `fieldWeights` is flattened
into one field per entry.  `maxReadmeTokens : Option ℕ` models a `number`
that defaults to `Number.POSITIVE_INFINITY`: `none` stands for the infinite
default, under which `tokenize` never truncates, exactly as in the source. -/
structure EngineConfig where
  ownerWeight : ℚ
  nameWeight : ℚ
  descriptionWeight : ℚ
  readmeWeight : ℚ
  k1 : ℚ
  b : ℚ
  k : ℚ
  delta : ℚ
  maxReadmeTokens : Option Nat
  maxKeywords : Nat

/-- `defaultConfig`. -/
def defaultConfig : EngineConfig where
  ownerWeight := 1/2
  nameWeight := 2
  descriptionWeight := 6/5
  readmeWeight := 2/5
  k1 := 6/5
  b := 3/4
  k := 1
  delta := 1/2
  maxReadmeTokens := none
  maxKeywords := 64

/-- `RepositoryDocument`.  `termFrequency` holds raw weighted counts after
ingestion and is overwritten with final scores by `consolidate`, hence its
values live in `ℝ`; `length` stays rational throughout. -/
structure RepositoryDocument where
  id : String
  repository : StarredRepository
  termFrequency : JMap ℝ
  length : ℚ

/-- `SearchOptions`. -/
structure SearchOptions where
  limit : Option Int

/-- `RepositorySearchResult`. -/
structure RepositorySearchResult where
  id : String
  repository : StarredRepository
  score : ℝ
  matchedTokens : List String

/-- The mutable fields of a `RepositorySearchEngine` instance. -/
structure EngineState where
  documents : JMap RepositoryDocument
  invertedIndex : JMap (List String)
  documentFrequency : JMap Nat
  inverseDocumentFrequency : JMap ℝ
  totalCorpusLength : ℚ
  averageDocumentLength : ℚ

/-- A freshly constructed engine. -/
def emptyEngine : EngineState where
  documents := []
  invertedIndex := []
  documentFrequency := []
  inverseDocumentFrequency := []
  totalCorpusLength := 0
  averageDocumentLength := 0

/-- `reset()`. -/
def reset (_ : EngineState) : EngineState := emptyEngine

/-- The `size` getter. -/
def size (st : EngineState) : Nat := st.documents.length

/-- The term-frequency accumulation loop shared by `ingestText` and
`ingestField`: for every token add `weight` to the document's entry. -/
def applyTokenWeights (weight : ℚ) : JMap ℝ → List String → JMap ℝ
  | tf, [] => tf
  | tf, token :: rest =>
    applyTokenWeights weight
      (mapSet tf token (((mapGet tf token).getD 0) + (weight : ℝ))) rest

/-- The inverted-index registration loop shared by `ingestText` and
`ingestField`: register `id` in the postings set of every token of
`docTokens` (the distinct tokens of the field, in first-seen order). -/
def registerTokens (id : String) : JMap (List String) → List String →
    JMap (List String)
  | idx, [] => idx
  | idx, token :: rest =>
    registerTokens id
      (mapSet idx token (setAdd ((mapGet idx token).getD []) id)) rest

/-- `ingestText(doc, rawValue, weight)`: returns the updated document
together with the updated engine state (whose `invertedIndex` is the only
field the method writes). -/
def ingestText (st : EngineState) (doc : RepositoryDocument)
    (rawValue : String) (weight : ℚ) : RepositoryDocument × EngineState :=
  if rawValue = "" then (doc, st)
  else if weight ≤ 0 then (doc, st)
  else
    let tokens := tokenize rawValue none
    if tokens = [] then (doc, st)
    else
      let doc' := { doc with
        termFrequency := applyTokenWeights weight doc.termFrequency tokens
        length := doc.length + tokens.length * weight }
      ( doc',
        { st with
            invertedIndex :=
              registerTokens doc.id st.invertedIndex (uniqueTokens tokens) } )

/-- `ingestField(doc, rawValue, weight, tokenLimit?)`: identical to
`ingestText` except that tokenization respects the optional token limit. -/
def ingestField (st : EngineState) (doc : RepositoryDocument)
    (rawValue : String) (weight : ℚ) (tokenLimit : Option Nat) :
    RepositoryDocument × EngineState :=
  if rawValue = "" then (doc, st)
  else if weight ≤ 0 then (doc, st)
  else
    let tokens := tokenize rawValue tokenLimit
    if tokens = [] then (doc, st)
    else
      let doc' := { doc with
        termFrequency := applyTokenWeights weight doc.termFrequency tokens
        length := doc.length + tokens.length * weight }
      ( doc',
        { st with
            invertedIndex :=
              registerTokens doc.id st.invertedIndex (uniqueTokens tokens) } )

/-- `add(repository)`. -/
def add (cfg : EngineConfig) (st : EngineState)
    (repository : StarredRepository) : EngineState :=
  let id := buildRepositoryId repository
  if mapHas st.documents id then st
  else
    let doc : RepositoryDocument :=
      { id := id, repository := repository, termFrequency := [], length := 0 }
    let (doc, st) := ingestText st doc repository.owner cfg.ownerWeight
    let (doc, st) := ingestText st doc repository.name cfg.nameWeight
    let (doc, st) :=
      ingestField st doc (repository.description.getD "")
        cfg.descriptionWeight none
    let (doc, st) :=
      ingestField st doc (repository.readme.getD "")
        cfg.readmeWeight cfg.maxReadmeTokens
    { st with
        totalCorpusLength := st.totalCorpusLength + doc.length
        documents := mapSet st.documents id doc }

/-- The entry loop of `normalizeDocumentFrequencies`: walk the raw
`termFrequency` entries, skipping tokens without an IDF entry, tokens with
non-positive raw frequency, and zero denominators, and accumulate the final
per-token scores into `normalized`. -/
noncomputable def normalizeEntries (cfg : EngineConfig) (idf : JMap ℝ)
    (normalizationFactor : ℚ) : List (String × ℝ) → JMap ℝ → JMap ℝ
  | [], normalized => normalized
  | (token, frequency) :: rest, normalized =>
    match mapGet idf token with
    | none => normalizeEntries cfg idf normalizationFactor rest normalized
    | some idfValue =>
      if frequency ≤ 0 then
        normalizeEntries cfg idf normalizationFactor rest normalized
      else
        let denominator := frequency + (cfg.k1 : ℝ) * (normalizationFactor : ℝ)
        if denominator = 0 then
          normalizeEntries cfg idf normalizationFactor rest normalized
        else
          let baseTf := frequency * ((cfg.k1 : ℝ) + 1) / denominator
          let tf := baseTf + (cfg.delta : ℝ)
          normalizeEntries cfg idf normalizationFactor rest
            (mapSet normalized token (tf * idfValue))

/-- `normalizeDocumentFrequencies(doc)`. -/
noncomputable def normalizeDocumentFrequencies (cfg : EngineConfig)
    (st : EngineState) (doc : RepositoryDocument) : JMap ℝ :=
  let averageLength : ℚ :=
    if st.averageDocumentLength = 0 then 1 else st.averageDocumentLength
  let normalizationFactor : ℚ :=
    1 - cfg.b + cfg.b * (doc.length / averageLength)
  normalizeEntries cfg st.inverseDocumentFrequency normalizationFactor
    doc.termFrequency []

/-- `consolidate()`. -/
noncomputable def consolidate (cfg : EngineConfig) (st : EngineState) :
    EngineState :=
  if st.documents.length = 0 then st
  else
    let avg : ℚ := st.totalCorpusLength / (max st.documents.length 1 : Nat)
    let df : JMap Nat := st.invertedIndex.map (fun p => (p.1, p.2.length))
    let idf : JMap ℝ := df.map (fun p =>
      (p.1,
        Real.log
          (((st.documents.length : ℝ) - (p.2 : ℝ) + 1/2) / ((p.2 : ℝ) + 1/2)
            + (cfg.k : ℝ))))
    let st' := { st with
      averageDocumentLength := avg
      documentFrequency := df
      inverseDocumentFrequency := idf }
    { st' with
        documents := st'.documents.map (fun p =>
          (p.1,
            { p.2 with
                termFrequency := normalizeDocumentFrequencies cfg st' p.2 })) }

/-- The four ingestion calls of `add` in sequence (owner, name, description,
readme), starting from the fresh document; `add` stores the resulting
document and state.  Split out of `add` so that lemmas can name the
intermediate result. -/
def ingestPipeline (cfg : EngineConfig) (st : EngineState)
    (r : StarredRepository) : RepositoryDocument × EngineState :=
  let p1 := ingestText st
    (RepositoryDocument.mk (buildRepositoryId r) r [] 0) r.owner
    cfg.ownerWeight
  let p2 := ingestText p1.2 p1.1 r.name cfg.nameWeight
  let p3 := ingestField p2.2 p2.1 (r.description.getD "")
    cfg.descriptionWeight none
  ingestField p3.2 p3.1 (r.readme.getD "") cfg.readmeWeight
    cfg.maxReadmeTokens

/-- The corpus-statistics part of `consolidate` (steps 2–4 of the
consolidation: average length, document frequencies, IDF), split out so that
lemmas can name the intermediate state the document loop reads. -/
noncomputable def consolidateStats (cfg : EngineConfig) (st : EngineState) :
    EngineState :=
  let df : JMap Nat := st.invertedIndex.map (fun p => (p.1, p.2.length))
  { st with
    averageDocumentLength :=
      st.totalCorpusLength / (max st.documents.length 1 : Nat)
    documentFrequency := df
    inverseDocumentFrequency := df.map (fun p =>
      (p.1,
        Real.log
          (((st.documents.length : ℝ) - (p.2 : ℝ) + 1/2) / ((p.2 : ℝ) + 1/2)
            + (cfg.k : ℝ)))) }

/-- The postings loop of `updateScoresForKeyword`: for every document id of
the keyword's postings set that is present in the store, add the document's
precomputed per-token score and record the matched token. -/
def updateScoresLoop (st : EngineState) (keyword : String) :
    List String → JMap ℝ → JMap (List String) → JMap ℝ × JMap (List String)
  | [], scores, matchMap => (scores, matchMap)
  | id :: rest, scores, matchMap =>
    match mapGet st.documents id with
    | none => updateScoresLoop st keyword rest scores matchMap
    | some doc =>
      let termScore := (mapGet doc.termFrequency keyword).getD 0
      updateScoresLoop st keyword rest
        (mapSet scores id (((mapGet scores id).getD 0) + termScore))
        (mapSet matchMap id (setAdd ((mapGet matchMap id).getD []) keyword))

/-- `updateScoresForKeyword(keyword, scores, matchMap)`. -/
def updateScoresForKeyword (st : EngineState) (keyword : String)
    (scores : JMap ℝ) (matchMap : JMap (List String)) :
    JMap ℝ × JMap (List String) :=
  match mapGet st.invertedIndex keyword with
  | none => (scores, matchMap)
  | some docIds => updateScoresLoop st keyword docIds scores matchMap

/-- The keyword loop of `search`. -/
def accumulateScores (st : EngineState) :
    List String → JMap ℝ × JMap (List String) → JMap ℝ × JMap (List String)
  | [], acc => acc
  | keyword :: rest, (scores, matchMap) =>
    accumulateScores st rest (updateScoresForKeyword st keyword scores matchMap)

/-- The result-building loop of `search`: look every ranked id up in the
document store, failing with the invariant-violation error when absent. -/
def buildResults (st : EngineState) (matchMap : JMap (List String)) :
    List (String × ℝ) → Except String (List RepositorySearchResult)
  | [] => Except.ok []
  | (id, score) :: rest =>
    match mapGet st.documents id with
    | none => Except.error "Invariant violated: missing repository document"
    | some doc =>
      match buildResults st matchMap rest with
      | Except.error e => Except.error e
      | Except.ok results =>
        Except.ok
          ({ id := id, repository := doc.repository, score := score,
             matchedTokens := (mapGet matchMap id).getD [] } :: results)

/-- `search(keywords, options?)`.  The ranking `sort((a, b) => b.score -
a.score)` is a stable descending sort, modelled by insertion sort with the
non-strict comparison. -/
noncomputable def search (cfg : EngineConfig) (st : EngineState)
    (keywords : List String) (options : Option SearchOptions) :
    Except String (List RepositorySearchResult) :=
  if st.documents.length = 0 then Except.ok []
  else
    let normalizedKeywords := normalizeKeywords keywords cfg.maxKeywords
    if normalizedKeywords = [] then Except.ok []
    else
      let (scores, matchMap) := accumulateScores st normalizedKeywords ([], [])
      let limit : Int := max ((options.bind SearchOptions.limit).getD 10) 1
      let ranked :=
        (List.insertionSort (fun a b => b.2 ≤ a.2) scores).take limit.toNat
      buildResults st matchMap ranked

/-- State-threaded variant of the postings loop of `updateScoresForKeyword`,
for the frame property: the engine state is passed through every iteration
exactly as the method body reads `this`, and is returned alongside the two
accumulator maps the loop writes. -/
def updateScoresLoopM (keyword : String) :
    EngineState → List String → JMap ℝ → JMap (List String) →
      EngineState × JMap ℝ × JMap (List String)
  | st, [], scores, matchMap => (st, scores, matchMap)
  | st, id :: rest, scores, matchMap =>
    match mapGet st.documents id with
    | none => updateScoresLoopM keyword st rest scores matchMap
    | some doc =>
      let termScore := (mapGet doc.termFrequency keyword).getD 0
      updateScoresLoopM keyword st rest
        (mapSet scores id (((mapGet scores id).getD 0) + termScore))
        (mapSet matchMap id (setAdd ((mapGet matchMap id).getD []) keyword))

/-- State-threaded `updateScoresForKeyword`. -/
def updateScoresForKeywordM (st : EngineState) (keyword : String)
    (scores : JMap ℝ) (matchMap : JMap (List String)) :
    EngineState × JMap ℝ × JMap (List String) :=
  match mapGet st.invertedIndex keyword with
  | none => (st, scores, matchMap)
  | some docIds => updateScoresLoopM keyword st docIds scores matchMap

/-- State-threaded keyword loop of `search`. -/
def accumulateScoresM :
    EngineState → List String → JMap ℝ × JMap (List String) →
      EngineState × JMap ℝ × JMap (List String)
  | st, [], acc => (st, acc.1, acc.2)
  | st, keyword :: rest, (scores, matchMap) =>
    match updateScoresForKeywordM st keyword scores matchMap with
    | (st', scores', matchMap') => accumulateScoresM st' rest (scores', matchMap')

/-- State-threaded `search`: returns the result together with the engine
state as left behind by the call.  The frame claim is that the returned
state always equals the input state. -/
noncomputable def searchM (cfg : EngineConfig) (st : EngineState)
    (keywords : List String) (options : Option SearchOptions) :
    Except String (List RepositorySearchResult) × EngineState :=
  if st.documents.length = 0 then (Except.ok [], st)
  else
    let normalizedKeywords := normalizeKeywords keywords cfg.maxKeywords
    if normalizedKeywords = [] then (Except.ok [], st)
    else
      match accumulateScoresM st normalizedKeywords ([], []) with
      | (st', scores, matchMap) =>
        let limit : Int := max ((options.bind SearchOptions.limit).getD 10) 1
        let ranked :=
          (List.insertionSort (fun a b => b.2 ≤ a.2) scores).take limit.toNat
        (buildResults st' matchMap ranked, st')

/-- One public mutating operation of the engine. -/
inductive EngineStep (cfg : EngineConfig) : EngineState → EngineState → Prop
  | add (st : EngineState) (r : StarredRepository) :
      EngineStep cfg st (add cfg st r)
  | consolidate (st : EngineState) :
      EngineStep cfg st (consolidate cfg st)

/-- Reflexive-transitive closure of `EngineStep`: the second state is
obtained from the first by some sequence of `add`/`consolidate` calls. -/
inductive EngineReaches (cfg : EngineConfig) :
    EngineState → EngineState → Prop
  | refl (st : EngineState) : EngineReaches cfg st st
  | tail {st t u : EngineState} :
      EngineReaches cfg st t → EngineStep cfg t u → EngineReaches cfg st u

/-- States built from a fresh engine by `add` calls only (no consolidation
yet). -/
inductive BuiltByAdds (cfg : EngineConfig) : EngineState → Prop
  | empty : BuiltByAdds cfg emptyEngine
  | add {st : EngineState} (r : StarredRepository) :
      BuiltByAdds cfg st → BuiltByAdds cfg (add cfg st r)

/-- Number of results of a (non-throwing) search outcome. -/
def okLength (e : Except String (List RepositorySearchResult)) : Nat :=
  match e with
  | Except.ok results => results.length
  | Except.error _ => 0

/-- The id of the first (top-ranked) result of a successful search. -/
def firstResultId (e : Except String (List RepositorySearchResult)) :
    Option String :=
  match e with
  | Except.ok (r :: _) => some r.id
  | _ => none

/-- A one-token repository used for concrete scenarios: id `a/a`, the single
token `a` in both owner and name. -/
def repoSolo : StarredRepository :=
  { owner := "a", name := "a", description := none, readme := none }

/-- A second one-token repository, id `b/b`. -/
def repoOther : StarredRepository :=
  { owner := "b", name := "b", description := none, readme := none }

/-- Concrete trio for the field-priority scenario, unequal lengths: the
query term `term` occurs exactly once in this document's name, whose three
extra name tokens make the document long. -/
def cexNameDoc : StarredRepository :=
  { owner := "ao", name := "term p q r", description := none, readme := none }

/-- Field-priority trio: `term` occurs exactly once in the description. -/
def cexDescDoc : StarredRepository :=
  { owner := "bo", name := "nb", description := some "term", readme := none }

/-- Field-priority trio: `term` occurs exactly once in the owner. -/
def cexOwnerDoc : StarredRepository :=
  { owner := "term", name := "nc", description := none, readme := none }

/-- Equal-length variant of `cexNameDoc`: one extra description token pads
the document to the same weighted length `3.7` as the other two. -/
def eqNameDoc : StarredRepository :=
  { owner := "ao", name := "term", description := some "fill", readme := none }

/-- Equal-length variant of `cexOwnerDoc` (length `3.7`). -/
def eqOwnerDoc : StarredRepository :=
  { owner := "term", name := "nc", description := some "pad", readme := none }

/-- The engine state after `add`-ing `repoSolo` to a fresh engine, written
out: one document `a/a` with the single term `a` of raw weight
`0.5 + 2 = 2.5` and length `2.5`. -/
noncomputable def soloAdded : EngineState where
  documents :=
    [("a/a", RepositoryDocument.mk "a/a" repoSolo [("a", 5/2)] (5/2))]
  invertedIndex := [("a", ["a/a"])]
  documentFrequency := []
  inverseDocumentFrequency := []
  totalCorpusLength := 5/2
  averageDocumentLength := 0

/-- `soloAdded` after one consolidation: `idf(a) = ln(4/3)` and the term
score `(2.5·2.2/(2.5+1.2) + 0.5)·ln(4/3) = (147/74)·ln(4/3)`. -/
noncomputable def soloConsolidated : EngineState where
  documents :=
    [("a/a",
      RepositoryDocument.mk "a/a" repoSolo
        [("a", 147/74 * Real.log (4/3))] (5/2))]
  invertedIndex := [("a", ["a/a"])]
  documentFrequency := [("a", 1)]
  inverseDocumentFrequency := [("a", Real.log (4/3))]
  totalCorpusLength := 5/2
  averageDocumentLength := 5/2

/-- The engine state after adding `cexNameDoc`, `cexDescDoc`,
`cexOwnerDoc` (in that order) to a fresh engine, written out.  Lengths:
`8.5`, `3.7`, `2.5`. -/
noncomputable def trioAdded : EngineState where
  documents :=
    [("ao/term p q r",
      RepositoryDocument.mk "ao/term p q r" cexNameDoc
        [("ao", 1/2), ("term", 2), ("p", 2), ("q", 2), ("r", 2)] (17/2)),
     ("bo/nb",
      RepositoryDocument.mk "bo/nb" cexDescDoc
        [("bo", 1/2), ("nb", 2), ("term", 6/5)] (37/10)),
     ("term/nc",
      RepositoryDocument.mk "term/nc" cexOwnerDoc
        [("term", 1/2), ("nc", 2)] (5/2))]
  invertedIndex :=
    [("ao", ["ao/term p q r"]),
     ("term", ["ao/term p q r", "bo/nb", "term/nc"]),
     ("p", ["ao/term p q r"]), ("q", ["ao/term p q r"]),
     ("r", ["ao/term p q r"]), ("bo", ["bo/nb"]), ("nb", ["bo/nb"]),
     ("nc", ["term/nc"])]
  documentFrequency := []
  inverseDocumentFrequency := []
  totalCorpusLength := 147/10
  averageDocumentLength := 0

/-- The engine state after adding `eqNameDoc`, `cexDescDoc`, `eqOwnerDoc`
(in that order) to a fresh engine: all three documents have equal weighted
length `3.7`. -/
noncomputable def eqTrioAdded : EngineState where
  documents :=
    [("ao/term",
      RepositoryDocument.mk "ao/term" eqNameDoc
        [("ao", 1/2), ("term", 2), ("fill", 6/5)] (37/10)),
     ("bo/nb",
      RepositoryDocument.mk "bo/nb" cexDescDoc
        [("bo", 1/2), ("nb", 2), ("term", 6/5)] (37/10)),
     ("term/nc",
      RepositoryDocument.mk "term/nc" eqOwnerDoc
        [("term", 1/2), ("nc", 2), ("pad", 6/5)] (37/10))]
  invertedIndex :=
    [("ao", ["ao/term"]),
     ("term", ["ao/term", "bo/nb", "term/nc"]),
     ("fill", ["ao/term"]), ("bo", ["bo/nb"]), ("nb", ["bo/nb"]),
     ("nc", ["term/nc"]), ("pad", ["term/nc"])]
  documentFrequency := []
  inverseDocumentFrequency := []
  totalCorpusLength := 111/10
  averageDocumentLength := 0

/-- Intermediate state: fresh engine after adding `cexNameDoc` only. -/
noncomputable def trioStep1 : EngineState where
  documents :=
    [("ao/term p q r",
      RepositoryDocument.mk "ao/term p q r" cexNameDoc
        [("ao", 1/2), ("term", 2), ("p", 2), ("q", 2), ("r", 2)] (17/2))]
  invertedIndex :=
    [("ao", ["ao/term p q r"]), ("term", ["ao/term p q r"]),
     ("p", ["ao/term p q r"]), ("q", ["ao/term p q r"]),
     ("r", ["ao/term p q r"])]
  documentFrequency := []
  inverseDocumentFrequency := []
  totalCorpusLength := 17/2
  averageDocumentLength := 0

/-- Intermediate state: `trioStep1` after adding `cexDescDoc`. -/
noncomputable def trioStep2 : EngineState where
  documents :=
    [("ao/term p q r",
      RepositoryDocument.mk "ao/term p q r" cexNameDoc
        [("ao", 1/2), ("term", 2), ("p", 2), ("q", 2), ("r", 2)] (17/2)),
     ("bo/nb",
      RepositoryDocument.mk "bo/nb" cexDescDoc
        [("bo", 1/2), ("nb", 2), ("term", 6/5)] (37/10))]
  invertedIndex :=
    [("ao", ["ao/term p q r"]),
     ("term", ["ao/term p q r", "bo/nb"]),
     ("p", ["ao/term p q r"]), ("q", ["ao/term p q r"]),
     ("r", ["ao/term p q r"]), ("bo", ["bo/nb"]), ("nb", ["bo/nb"])]
  documentFrequency := []
  inverseDocumentFrequency := []
  totalCorpusLength := 61/5
  averageDocumentLength := 0

/-- Intermediate state: fresh engine after adding `eqNameDoc` only. -/
noncomputable def eqTrioStep1 : EngineState where
  documents :=
    [("ao/term",
      RepositoryDocument.mk "ao/term" eqNameDoc
        [("ao", 1/2), ("term", 2), ("fill", 6/5)] (37/10))]
  invertedIndex :=
    [("ao", ["ao/term"]), ("term", ["ao/term"]), ("fill", ["ao/term"])]
  documentFrequency := []
  inverseDocumentFrequency := []
  totalCorpusLength := 37/10
  averageDocumentLength := 0

/-- Intermediate state: `eqTrioStep1` after adding `cexDescDoc`. -/
noncomputable def eqTrioStep2 : EngineState where
  documents :=
    [("ao/term",
      RepositoryDocument.mk "ao/term" eqNameDoc
        [("ao", 1/2), ("term", 2), ("fill", 6/5)] (37/10)),
     ("bo/nb",
      RepositoryDocument.mk "bo/nb" cexDescDoc
        [("bo", 1/2), ("nb", 2), ("term", 6/5)] (37/10))]
  invertedIndex :=
    [("ao", ["ao/term"]), ("term", ["ao/term", "bo/nb"]),
     ("fill", ["ao/term"]), ("bo", ["bo/nb"]), ("nb", ["bo/nb"])]
  documentFrequency := []
  inverseDocumentFrequency := []
  totalCorpusLength := 37/5
  averageDocumentLength := 0

/-! ## Association-list (JavaScript `Map`) lemmas -/

theorem mapGet_mapSet_self {α : Type} (m : JMap α) (k : String) (v : α) :
    mapGet (mapSet m k v) k = some v := by
  induction m with
  | nil => simp [mapSet, mapGet]
  | cons p m ih =>
    obtain ⟨k', v'⟩ := p
    by_cases h : k' = k <;> simp [mapSet, mapGet, h, ih]

theorem mapGet_mapSet_ne {α : Type} (m : JMap α) (k k₀ : String) (v : α)
    (h : k ≠ k₀) : mapGet (mapSet m k v) k₀ = mapGet m k₀ := by
  induction m with
  | nil => simp [mapSet, mapGet, h]
  | cons p m ih =>
    obtain ⟨k', v'⟩ := p
    by_cases h' : k' = k <;> simp [mapSet, mapGet, h', h, ih]

theorem mem_mapKeys_iff_isSome {α : Type} (m : JMap α) (k : String) :
    k ∈ mapKeys m ↔ (mapGet m k).isSome := by
  induction m with
  | nil => simp [mapKeys, mapGet]
  | cons p m ih =>
    obtain ⟨k', v'⟩ := p
    by_cases h : k' = k
    · simp [mapKeys, mapGet, h]
    · simp only [mapKeys, List.map_cons, List.mem_cons, mapGet, if_neg h]
      rw [← ih]
      simp [mapKeys, Ne.symm h]

theorem mapHas_iff_mem {α : Type} (m : JMap α) (k : String) :
    mapHas m k = true ↔ k ∈ mapKeys m := by
  rw [mem_mapKeys_iff_isSome]; simp [mapHas]

theorem mapKeys_mapSet {α : Type} (m : JMap α) (k : String) (v : α) :
    mapKeys (mapSet m k v) =
      if k ∈ mapKeys m then mapKeys m else mapKeys m ++ [k] := by
  induction m with
  | nil => simp [mapSet, mapKeys]
  | cons p m ih =>
    obtain ⟨k', v'⟩ := p
    by_cases h : k' = k
    · simp [mapSet, mapKeys, h]
    · have hcons :
          mapKeys (mapSet ((k', v') :: m) k v) = k' :: mapKeys (mapSet m k v) := by
        simp [mapSet, if_neg h, mapKeys]
      rw [hcons, ih]
      by_cases hm : k ∈ mapKeys m
      · rw [if_pos hm, if_pos (by simp [mapKeys]; right; simpa [mapKeys] using hm)]
        simp [mapKeys]
      · have hnot : k ∉ mapKeys ((k', v') :: m) := by
          simp only [mapKeys, List.map_cons, List.mem_cons, not_or]
          exact ⟨fun hh => h hh.symm, by simpa [mapKeys] using hm⟩
        rw [if_neg hm, if_neg hnot]
        simp [mapKeys]

theorem mapKeys_mapSet_nodup {α : Type} (m : JMap α) (k : String) (v : α)
    (h : (mapKeys m).Nodup) : (mapKeys (mapSet m k v)).Nodup := by
  rw [mapKeys_mapSet]
  by_cases hm : k ∈ mapKeys m
  · simpa [hm] using h
  · rw [if_neg hm]
    refine List.Nodup.append h (List.nodup_singleton k) ?_
    intro x hx hx'
    simp at hx'
    exact hm (hx' ▸ hx)

theorem length_mapSet {α : Type} (m : JMap α) (k : String) (v : α) :
    (mapSet m k v).length =
      if k ∈ mapKeys m then m.length else m.length + 1 := by
  have h := mapKeys_mapSet m k v
  have hlen : (mapKeys (mapSet m k v)).length = (mapSet m k v).length := by
    simp [mapKeys]
  have hlen' : (mapKeys m).length = m.length := by simp [mapKeys]
  by_cases hm : k ∈ mapKeys m
  · rw [if_pos hm] at h; rw [if_pos hm, ← hlen, h, hlen']
  · rw [if_neg hm] at h; rw [if_neg hm, ← hlen, h]
    simp [hlen']

theorem mapGet_mapValues {α β : Type} (f : String × α → β) (m : JMap α)
    (k : String) :
    mapGet (m.map (fun p => (p.1, f p))) k =
      (mapGet m k).map (fun v => f (k, v)) := by
  induction m with
  | nil => simp [mapGet]
  | cons p m ih =>
    obtain ⟨k', v'⟩ := p
    by_cases h : k' = k <;> simp [mapGet, h, ih]

theorem mapKeys_mapValues {α β : Type} (f : String × α → β) (m : JMap α) :
    mapKeys (m.map (fun p => (p.1, f p))) = mapKeys m := by
  induction m with
  | nil => rfl
  | cons p m ih => obtain ⟨k', v'⟩ := p; simp [mapKeys]

theorem mem_setAdd {s : List String} {x y : String} :
    x ∈ setAdd s y ↔ x ∈ s ∨ x = y := by
  by_cases h : y ∈ s
  · simp only [setAdd, if_pos h]
    constructor
    · exact Or.inl
    · rintro (hx | rfl)
      · exact hx
      · exact h
  · simp [setAdd, h]

theorem subset_setAdd (s : List String) (y : String) : s ⊆ setAdd s y := by
  intro x hx; rw [mem_setAdd]; exact Or.inl hx

theorem setAdd_nodup {s : List String} (h : s.Nodup) (y : String) :
    (setAdd s y).Nodup := by
  by_cases hy : y ∈ s
  · simpa [setAdd, hy] using h
  · rw [setAdd, if_neg hy]
    refine List.Nodup.append h (List.nodup_singleton y) ?_
    intro x hx hx'
    simp at hx'
    exact hy (hx' ▸ hx)

/-! ## Keyword-normalization lemmas -/

theorem dedupSeen_eq_nil {l seen : List String} (h : ∀ x ∈ l, x ∈ seen) :
    dedupSeen l seen = [] := by
  induction l with
  | nil => rfl
  | cons t l ih =>
    have ht : t ∈ seen := h t (List.mem_cons_self t l)
    rw [dedupSeen, if_pos ht]
    exact ih (fun x hx => h x (List.mem_cons_of_mem t hx))

theorem dedupSeen_append_subset {l l' seen : List String}
    (h : ∀ x ∈ l', x ∈ seen ∨ x ∈ l) :
    dedupSeen (l ++ l') seen = dedupSeen l seen := by
  induction l generalizing seen with
  | nil =>
    simp only [List.nil_append, dedupSeen]
    exact dedupSeen_eq_nil (fun x hx => (h x hx).resolve_right (by simp))
  | cons t l ih =>
    by_cases ht : t ∈ seen
    · simp only [List.cons_append, dedupSeen, if_pos ht]
      refine ih (fun x hx => ?_)
      rcases h x hx with hs | hl
      · exact Or.inl hs
      · rcases List.mem_cons.mp hl with rfl | hl'
        · exact Or.inl ht
        · exact Or.inr hl'
    · simp only [List.cons_append, dedupSeen, if_neg ht]
      refine congrArg _ (ih (fun x hx => ?_))
      rcases h x hx with hs | hl
      · exact Or.inl (List.mem_cons_of_mem t hs)
      · rcases List.mem_cons.mp hl with rfl | hl'
        · exact Or.inl (List.mem_cons_self x seen)
        · exact Or.inr hl'

theorem uniqueTokens_append_subset {l l' : List String}
    (h : ∀ x ∈ l', x ∈ l) : uniqueTokens (l ++ l') = uniqueTokens l :=
  dedupSeen_append_subset (fun x hx => Or.inr (h x hx))

/-- Collecting `n ≥ 1` copies of one keyword yields the keyword's tokens
followed by some extra tokens drawn from the same token list. -/
theorem collectKeywords_replicate (limit : Nat) (kw : String) :
    ∀ n, 1 ≤ n → ∀ acc : List String,
      (trimString kw).length ≠ 0 →
      ∃ extra : List String,
        collectKeywords limit (List.replicate n kw) acc =
          acc ++ tokenize (trimString kw) none ++ extra ∧
        ∀ x ∈ extra, x ∈ tokenize (trimString kw) none := by
  intro n
  induction n with
  | zero => intro h; omega
  | succ n ih =>
    intro _ acc htrim
    rw [List.replicate_succ, collectKeywords, if_neg htrim]
    by_cases hbreak :
        limit ≠ 0 ∧ limit ≤ (acc ++ tokenize (trimString kw) none).length
    · rw [if_pos hbreak]
      exact ⟨[], by simp⟩
    · rw [if_neg hbreak]
      rcases Nat.eq_zero_or_pos n with rfl | hn
    -- with zero copies left the accumulator is returned unchanged
      · exact ⟨[], by simp [collectKeywords]⟩
      · obtain ⟨extra, heq, hmem⟩ :=
          ih hn (acc ++ tokenize (trimString kw) none) htrim
        refine ⟨tokenize (trimString kw) none ++ extra, ?_, ?_⟩
        · rw [heq]; simp
        · intro x hx
          rcases List.mem_append.mp hx with hx' | hx'
          · exact hx'
          · exact hmem x hx'

theorem collectKeywords_replicate_trim_nil (limit : Nat) (kw : String)
    (htrim : (trimString kw).length = 0) :
    ∀ n (acc : List String),
      collectKeywords limit (List.replicate n kw) acc = acc := by
  intro n
  induction n with
  | zero => intro acc; rfl
  | succ n ih =>
    intro acc
    rw [List.replicate_succ, collectKeywords, if_pos htrim]
    exact ih acc

/-- Claim C7's core: repeating one keyword `n ≥ 1` times normalizes to the
same token list as giving it once, because deduplication runs after
truncation. -/
theorem normalizeKeywords_replicate (kw : String) (limit : Nat) {n : Nat}
    (hn : 1 ≤ n) :
    normalizeKeywords (List.replicate n kw) limit =
      normalizeKeywords [kw] limit := by
  by_cases htrim : (trimString kw).length = 0
  · rw [normalizeKeywords, normalizeKeywords,
      collectKeywords_replicate_trim_nil limit kw htrim,
      show ([kw] : List String) = List.replicate 1 kw from rfl,
      collectKeywords_replicate_trim_nil limit kw htrim]
  · obtain ⟨extra, heq, hmem⟩ :=
      collectKeywords_replicate limit kw n hn [] htrim
    obtain ⟨extra1, heq1, hmem1⟩ :=
      collectKeywords_replicate limit kw 1 le_rfl [] htrim
    have hone : collectKeywords limit [kw] [] =
        tokenize (trimString kw) none := by
      rw [collectKeywords, if_neg htrim]
      by_cases hbreak :
          limit ≠ 0 ∧ limit ≤ (([] : List String) ++ tokenize (trimString kw) none).length
      · rw [if_pos hbreak]; simp
      · rw [if_neg hbreak]; simp [collectKeywords]
    set ts := tokenize (trimString kw) none with hts
    rw [normalizeKeywords, normalizeKeywords, heq, hone]
    simp only [List.nil_append]
    by_cases hl : limit = 0
    · simp only [hl, ne_eq, not_true_eq_false, if_false]
      exact uniqueTokens_append_subset hmem
    · simp only [ne_eq, hl, not_false_iff, if_true]
      rw [List.take_append_eq_append_take]
      by_cases hle : limit ≤ ts.length
      · have : limit - ts.length = 0 := by omega
        rw [this, List.take_zero, List.append_nil]
      · have hts' : ts.take limit = ts := List.take_of_length_le (by omega)
        rw [hts']
        exact uniqueTokens_append_subset
          (fun x hx => hmem x (List.mem_of_mem_take hx))

/-! ## Consolidation lemmas -/

theorem consolidate_empty (cfg : EngineConfig) (st : EngineState)
    (h : st.documents = []) : consolidate cfg st = st := by
  rw [consolidate, if_pos (by simp [h])]

theorem consolidate_eq (cfg : EngineConfig) (st : EngineState)
    (h : st.documents ≠ []) :
    consolidate cfg st =
      { consolidateStats cfg st with
          documents := st.documents.map (fun p =>
            (p.1,
              { p.2 with
                  termFrequency :=
                    normalizeDocumentFrequencies cfg
                      (consolidateStats cfg st) p.2 })) } := by
  rw [consolidate, if_neg (by simpa using h)]
  rfl

theorem consolidate_invertedIndex (cfg : EngineConfig) (st : EngineState) :
    (consolidate cfg st).invertedIndex = st.invertedIndex := by
  by_cases h : st.documents = []
  · rw [consolidate_empty cfg st h]
  · rw [consolidate_eq cfg st h]; rfl

theorem consolidate_totalCorpusLength (cfg : EngineConfig)
    (st : EngineState) :
    (consolidate cfg st).totalCorpusLength = st.totalCorpusLength := by
  by_cases h : st.documents = []
  · rw [consolidate_empty cfg st h]
  · rw [consolidate_eq cfg st h]; rfl

theorem consolidate_documentKeys (cfg : EngineConfig) (st : EngineState) :
    mapKeys (consolidate cfg st).documents = mapKeys st.documents := by
  by_cases h : st.documents = []
  · rw [consolidate_empty cfg st h]
  · rw [consolidate_eq cfg st h]
    exact mapKeys_mapValues
      (fun p =>
        { p.2 with
            termFrequency :=
              normalizeDocumentFrequencies cfg (consolidateStats cfg st) p.2 })
      st.documents

theorem consolidate_documents_length (cfg : EngineConfig)
    (st : EngineState) :
    (consolidate cfg st).documents.length = st.documents.length := by
  have h := consolidate_documentKeys cfg st
  have h1 : (mapKeys (consolidate cfg st).documents).length =
      (consolidate cfg st).documents.length := by simp [mapKeys]
  have h2 : (mapKeys st.documents).length = st.documents.length := by
    simp [mapKeys]
  rw [← h1, h, h2]

theorem consolidate_averageDocumentLength (cfg : EngineConfig)
    (st : EngineState) (h : st.documents ≠ []) :
    (consolidate cfg st).averageDocumentLength =
      st.totalCorpusLength / (max st.documents.length 1 : Nat) := by
  rw [consolidate_eq cfg st h]; rfl

theorem consolidate_documentFrequency (cfg : EngineConfig)
    (st : EngineState) (h : st.documents ≠ []) :
    (consolidate cfg st).documentFrequency =
      st.invertedIndex.map (fun p => (p.1, p.2.length)) := by
  rw [consolidate_eq cfg st h]; rfl

theorem consolidate_inverseDocumentFrequency (cfg : EngineConfig)
    (st : EngineState) (h : st.documents ≠ []) :
    (consolidate cfg st).inverseDocumentFrequency =
      (st.invertedIndex.map (fun p => (p.1, p.2.length))).map (fun p =>
        (p.1,
          Real.log
            (((st.documents.length : ℝ) - (p.2 : ℝ) + 1/2) / ((p.2 : ℝ) + 1/2)
              + (cfg.k : ℝ)))) := by
  rw [consolidate_eq cfg st h]; rfl

theorem consolidate_idf_get (cfg : EngineConfig) (st : EngineState)
    (h : st.documents ≠ []) (t : String) :
    mapGet (consolidate cfg st).inverseDocumentFrequency t =
      (mapGet st.invertedIndex t).map (fun postings =>
        Real.log
          (((st.documents.length : ℝ) - (postings.length : ℝ) + 1/2) /
              ((postings.length : ℝ) + 1/2)
            + (cfg.k : ℝ))) := by
  rw [consolidate_inverseDocumentFrequency cfg st h]
  rw [mapGet_mapValues (fun (p : String × Nat) =>
    Real.log
      (((st.documents.length : ℝ) - (p.2 : ℝ) + 1/2) / ((p.2 : ℝ) + 1/2)
        + (cfg.k : ℝ)))]
  rw [mapGet_mapValues (fun (p : String × List String) => List.length p.2)]
  cases mapGet st.invertedIndex t <;> rfl

theorem consolidate_documents_get (cfg : EngineConfig) (st : EngineState)
    (h : st.documents ≠ []) (id : String) :
    mapGet (consolidate cfg st).documents id =
      (mapGet st.documents id).map (fun d =>
        { d with
            termFrequency :=
              normalizeDocumentFrequencies cfg (consolidateStats cfg st) d }) := by
  rw [consolidate_eq cfg st h]
  exact mapGet_mapValues
    (fun p =>
      { p.2 with
          termFrequency :=
            normalizeDocumentFrequencies cfg (consolidateStats cfg st) p.2 })
    st.documents id

theorem normalizeEntries_get_of_notMem (cfg : EngineConfig) (idfm : JMap ℝ)
    (nf : ℚ) (t : String) (entries : List (String × ℝ)) (acc : JMap ℝ)
    (h : t ∉ mapKeys entries) :
    mapGet (normalizeEntries cfg idfm nf entries acc) t = mapGet acc t := by
  induction entries generalizing acc with
  | nil => rfl
  | cons p rest ih =>
    obtain ⟨tok, f⟩ := p
    have htok : tok ≠ t := fun hh => h (by simp [mapKeys, hh])
    have hrest : t ∉ mapKeys rest := fun hh => by
      refine h ?_
      simp only [mapKeys, List.map_cons, List.mem_cons]
      exact Or.inr (by simpa [mapKeys] using hh)
    rw [normalizeEntries]
    cases hidf : mapGet idfm tok with
    | none => simp only [hidf]; exact ih _ hrest
    | some v =>
      simp only [hidf]
      by_cases hf : f ≤ 0
      · rw [if_pos hf]; exact ih _ hrest
      · rw [if_neg hf]
        by_cases hden : f + (cfg.k1 : ℝ) * (nf : ℝ) = 0
        · rw [if_pos hden]; exact ih _ hrest
        · rw [if_neg hden, ih _ hrest]
          exact mapGet_mapSet_ne _ _ _ _ htok

/-- Reading back one entry of the normalized map: a token whose raw
frequency is positive, whose IDF entry exists and whose denominator is
nonzero receives exactly the BM25-with-delta score of the source. -/
theorem normalizeEntries_get_of_pos (cfg : EngineConfig) (idfm : JMap ℝ)
    (nf : ℚ) (t : String) (f v : ℝ) (entries : List (String × ℝ))
    (acc : JMap ℝ) (hnd : (mapKeys entries).Nodup)
    (hget : mapGet entries t = some f) (hidf : mapGet idfm t = some v)
    (hf : ¬ f ≤ 0) (hden : f + (cfg.k1 : ℝ) * (nf : ℝ) ≠ 0) :
    mapGet (normalizeEntries cfg idfm nf entries acc) t =
      some
        ((f * ((cfg.k1 : ℝ) + 1) / (f + (cfg.k1 : ℝ) * (nf : ℝ))
            + (cfg.delta : ℝ)) * v) := by
  induction entries generalizing acc with
  | nil => exact absurd hget (by simp [mapGet])
  | cons p rest ih =>
    obtain ⟨tok, g⟩ := p
    by_cases htk : tok = t
    · subst htk
      rw [mapGet, if_pos rfl] at hget
      obtain rfl : g = f := Option.some.inj hget
      have hrest : tok ∉ mapKeys rest := by
        have := hnd
        simp only [mapKeys, List.map_cons, List.nodup_cons] at this
        simpa [mapKeys] using this.1
      rw [normalizeEntries]
      simp only [hidf]
      rw [if_neg hf, if_neg hden,
        normalizeEntries_get_of_notMem cfg idfm nf tok rest _ hrest]
      exact mapGet_mapSet_self _ _ _
    · have hget' : mapGet rest t = some f := by
        have := hget
        rwa [mapGet, if_neg htk] at this
      have hnd' : (mapKeys rest).Nodup := by
        have := hnd
        simp only [mapKeys, List.map_cons, List.nodup_cons] at this
        exact this.2
      rw [normalizeEntries]
      cases hidf' : mapGet idfm tok with
      | none => simp only [hidf']; exact ih _ hnd' hget'
      | some w =>
        simp only [hidf']
        by_cases hg : g ≤ 0
        · rw [if_pos hg]; exact ih _ hnd' hget'
        · rw [if_neg hg]
          by_cases hdg : g + (cfg.k1 : ℝ) * (nf : ℝ) = 0
          · rw [if_pos hdg]; exact ih _ hnd' hget'
          · rw [if_neg hdg]; exact ih _ hnd' hget'

/-! ## Score-accumulation lemmas -/

theorem mem_mapKeys_mapSet {α : Type} (m : JMap α) (k x : String) (v : α) :
    x ∈ mapKeys (mapSet m k v) ↔ x ∈ mapKeys m ∨ x = k := by
  rw [mapKeys_mapSet]
  by_cases h : k ∈ mapKeys m
  · rw [if_pos h]
    constructor
    · exact Or.inl
    · rintro (hx | rfl)
      · exact hx
      · exact h
  · rw [if_neg h]; simp

theorem updateScoresLoop_keys_mem (st : EngineState) (kw : String)
    (ids : List String) :
    ∀ (scores : JMap ℝ) (matchMap : JMap (List String)) (k : String),
      k ∈ mapKeys (updateScoresLoop st kw ids scores matchMap).1 ↔
        k ∈ mapKeys scores ∨
          (k ∈ ids ∧ (mapGet st.documents k).isSome) := by
  induction ids with
  | nil => intro scores matchMap k; simp [updateScoresLoop]
  | cons id rest ih =>
    intro scores matchMap k
    rw [updateScoresLoop]
    cases hdoc : mapGet st.documents id with
    | none =>
      simp only [hdoc]
      rw [ih]
      constructor
      · rintro (hs | ⟨hrest, hsome⟩)
        · exact Or.inl hs
        · exact Or.inr ⟨List.mem_cons_of_mem id hrest, hsome⟩
      · rintro (hs | ⟨hmem, hsome⟩)
        · exact Or.inl hs
        · rcases List.mem_cons.mp hmem with rfl | hrest
          · rw [hdoc] at hsome; simp at hsome
          · exact Or.inr ⟨hrest, hsome⟩
    | some doc =>
      simp only [hdoc]
      rw [ih, mem_mapKeys_mapSet]
      constructor
      · rintro ((hs | rfl) | ⟨hrest, hsome⟩)
        · exact Or.inl hs
        · exact Or.inr ⟨List.mem_cons_self _ _, by rw [hdoc]; rfl⟩
        · exact Or.inr ⟨List.mem_cons_of_mem id hrest, hsome⟩
      · rintro (hs | ⟨hmem, hsome⟩)
        · exact Or.inl (Or.inl hs)
        · rcases List.mem_cons.mp hmem with rfl | hrest
          · exact Or.inl (Or.inr rfl)
          · exact Or.inr ⟨hrest, hsome⟩

theorem updateScoresLoop_keys_nodup (st : EngineState) (kw : String)
    (ids : List String) :
    ∀ (scores : JMap ℝ) (matchMap : JMap (List String)),
      (mapKeys scores).Nodup →
      (mapKeys (updateScoresLoop st kw ids scores matchMap).1).Nodup := by
  induction ids with
  | nil => intro scores matchMap h; exact h
  | cons id rest ih =>
    intro scores matchMap h
    rw [updateScoresLoop]
    cases hdoc : mapGet st.documents id with
    | none => exact ih _ _ h
    | some doc => exact ih _ _ (mapKeys_mapSet_nodup _ _ _ h)

theorem updateScoresForKeyword_keys_mem (st : EngineState) (kw : String)
    (scores : JMap ℝ) (matchMap : JMap (List String)) (k : String) :
    k ∈ mapKeys (updateScoresForKeyword st kw scores matchMap).1 ↔
      k ∈ mapKeys scores ∨
        (k ∈ (mapGet st.invertedIndex kw).getD [] ∧
          (mapGet st.documents k).isSome) := by
  rw [updateScoresForKeyword]
  cases hidx : mapGet st.invertedIndex kw with
  | none => simp
  | some ids => simp only [Option.getD_some]; exact
      updateScoresLoop_keys_mem st kw ids scores matchMap k

theorem updateScoresForKeyword_keys_nodup (st : EngineState) (kw : String)
    (scores : JMap ℝ) (matchMap : JMap (List String))
    (h : (mapKeys scores).Nodup) :
    (mapKeys (updateScoresForKeyword st kw scores matchMap).1).Nodup := by
  rw [updateScoresForKeyword]
  cases hidx : mapGet st.invertedIndex kw with
  | none => exact h
  | some ids => exact updateScoresLoop_keys_nodup st kw ids _ _ h

theorem accumulateScores_keys_mem (st : EngineState) (ts : List String) :
    ∀ (scores : JMap ℝ) (matchMap : JMap (List String)) (k : String),
      k ∈ mapKeys (accumulateScores st ts (scores, matchMap)).1 ↔
        k ∈ mapKeys scores ∨
          ∃ t ∈ ts, k ∈ (mapGet st.invertedIndex t).getD [] ∧
            (mapGet st.documents k).isSome := by
  induction ts with
  | nil => intro scores matchMap k; simp [accumulateScores]
  | cons t rest ih =>
    intro scores matchMap k
    rw [accumulateScores]
    cases hup : updateScoresForKeyword st t scores matchMap with
    | mk scores' matchMap' =>
      rw [ih]
      have hkeys := updateScoresForKeyword_keys_mem st t scores matchMap k
      rw [hup] at hkeys
      constructor
      · rintro (hs | ⟨u, hu, hpost, hsome⟩)
        · rcases hkeys.mp hs with hs' | ⟨hpost, hsome⟩
          · exact Or.inl hs'
          · exact Or.inr ⟨t, List.mem_cons_self _ _, hpost, hsome⟩
        · exact Or.inr ⟨u, List.mem_cons_of_mem t hu, hpost, hsome⟩
      · rintro (hs | ⟨u, hu, hpost, hsome⟩)
        · exact Or.inl (hkeys.mpr (Or.inl hs))
        · rcases List.mem_cons.mp hu with rfl | hu'
          · exact Or.inl (hkeys.mpr (Or.inr ⟨hpost, hsome⟩))
          · exact Or.inr ⟨u, hu', hpost, hsome⟩

theorem accumulateScores_keys_nodup (st : EngineState) (ts : List String) :
    ∀ (scores : JMap ℝ) (matchMap : JMap (List String)),
      (mapKeys scores).Nodup →
      (mapKeys (accumulateScores st ts (scores, matchMap)).1).Nodup := by
  induction ts with
  | nil => intro scores matchMap h; exact h
  | cons t rest ih =>
    intro scores matchMap h
    rw [accumulateScores]
    cases hup : updateScoresForKeyword st t scores matchMap with
    | mk scores' matchMap' =>
      have := updateScoresForKeyword_keys_nodup st t scores matchMap h
      rw [hup] at this
      exact ih _ _ this

theorem buildResults_ok (st : EngineState) (matchMap : JMap (List String)) :
    ∀ ranked : List (String × ℝ),
      (∀ p ∈ ranked, (mapGet st.documents p.1).isSome) →
      ∃ rs, buildResults st matchMap ranked = Except.ok rs ∧
        rs.map RepositorySearchResult.id = ranked.map Prod.fst := by
  intro ranked
  induction ranked with
  | nil => intro _; exact ⟨[], rfl, rfl⟩
  | cons p rest ih =>
    intro h
    obtain ⟨id, sc⟩ := p
    have hsome := h (id, sc) (List.mem_cons_self _ _)
    obtain ⟨doc, hdoc⟩ := Option.isSome_iff_exists.mp hsome
    obtain ⟨rs, hrs, hmap⟩ := ih (fun q hq => h q (List.mem_cons_of_mem _ hq))
    refine ⟨RepositorySearchResult.mk id doc.repository sc
        ((mapGet matchMap id).getD []) :: rs, ?_, ?_⟩
    · rw [buildResults]
      simp only [hdoc, hrs]
    · simpa using hmap

/-! ## Search lemmas -/

theorem search_empty_docs (cfg : EngineConfig) (st : EngineState)
    (h : st.documents = []) (kws : List String)
    (opts : Option SearchOptions) : search cfg st kws opts = Except.ok [] := by
  rw [search, if_pos (by simp [h])]

theorem search_empty_keywords (cfg : EngineConfig) (st : EngineState)
    (kws : List String) (opts : Option SearchOptions)
    (h : normalizeKeywords kws cfg.maxKeywords = []) :
    search cfg st kws opts = Except.ok [] := by
  by_cases hd : st.documents.length = 0
  · rw [search, if_pos hd]
  · rw [search, if_neg hd, if_pos h]

/-- Every key accumulated into the score map (starting from the empty maps,
as `search` does) belongs to some queried token's postings and is present in
the document store. -/
theorem accumulateScores_keys_isSome (st : EngineState) (ts : List String)
    (k : String) (h : k ∈ mapKeys (accumulateScores st ts ([], [])).1) :
    (mapGet st.documents k).isSome := by
  rcases (accumulateScores_keys_mem st ts [] [] k).mp h with hbase | ⟨_, _, _, hs⟩
  · simp [mapKeys] at hbase
  · exact hs

/-- On a non-empty corpus with a non-empty normalized query, `search`
succeeds and returns exactly the sorted, truncated score entries. -/
theorem search_eq_ok (cfg : EngineConfig) (st : EngineState)
    (kws : List String) (opts : Option SearchOptions)
    (hne : st.documents.length ≠ 0)
    (hkw : normalizeKeywords kws cfg.maxKeywords ≠ []) :
    ∃ rs, search cfg st kws opts = Except.ok rs ∧
      rs.map RepositorySearchResult.id =
        ((List.insertionSort (fun a b => b.2 ≤ a.2)
              (accumulateScores st (normalizeKeywords kws cfg.maxKeywords)
                ([], [])).1).take
            (Int.toNat
              (max ((opts.bind SearchOptions.limit).getD 10) 1))).map
          Prod.fst := by
  rw [search, if_neg hne, if_neg hkw]
  rcases hacc : accumulateScores st (normalizeKeywords kws cfg.maxKeywords)
      ([], []) with ⟨scores, matchMap⟩
  have hranked : ∀ p ∈ (List.insertionSort
        (fun a b : String × ℝ => b.2 ≤ a.2) scores).take
          (Int.toNat (max ((opts.bind SearchOptions.limit).getD 10) 1)),
      (mapGet st.documents p.1).isSome := by
    intro p hp
    have hp1 : p ∈ List.insertionSort (fun a b : String × ℝ => b.2 ≤ a.2)
        scores := List.mem_of_mem_take hp
    have hp2 : p ∈ scores := (List.perm_insertionSort _ scores).subset hp1
    have hp3 : p.1 ∈ mapKeys scores := by
      simpa [mapKeys] using List.mem_map_of_mem Prod.fst hp2
    refine accumulateScores_keys_isSome st
      (normalizeKeywords kws cfg.maxKeywords) p.1 ?_
    rw [hacc]
    exact hp3
  obtain ⟨rs, hok, hids⟩ := buildResults_ok st matchMap _ hranked
  exact ⟨rs, hok, hids⟩

/-- The number of search results is the score-map size capped by the
effective limit. -/
theorem search_okLength (cfg : EngineConfig) (st : EngineState)
    (kws : List String) (opts : Option SearchOptions)
    (hne : st.documents.length ≠ 0)
    (hkw : normalizeKeywords kws cfg.maxKeywords ≠ []) :
    okLength (search cfg st kws opts) =
      min
        (Int.toNat (max ((opts.bind SearchOptions.limit).getD 10) 1))
        (mapKeys
          (accumulateScores st (normalizeKeywords kws cfg.maxKeywords)
            ([], [])).1).length := by
  obtain ⟨rs, hok, hids⟩ := search_eq_ok cfg st kws opts hne hkw
  rw [hok]
  have hlen : rs.length =
      ((List.insertionSort (fun a b : String × ℝ => b.2 ≤ a.2)
            (accumulateScores st (normalizeKeywords kws cfg.maxKeywords)
              ([], [])).1).take
          (Int.toNat (max ((opts.bind SearchOptions.limit).getD 10) 1))).length := by
    have := congrArg List.length hids
    simpa using this
  rw [okLength, hlen, List.length_take, List.length_insertionSort]
  simp [mapKeys]

/-! ## Monotonicity of the corpus under `add`/`consolidate` -/

theorem mapGet_mapSet_isSome {α : Type} (m : JMap α) (k k₀ : String) (v : α)
    (h : (mapGet m k₀).isSome) : (mapGet (mapSet m k v) k₀).isSome := by
  by_cases hk : k = k₀
  · subst hk; rw [mapGet_mapSet_self]; rfl
  · rwa [mapGet_mapSet_ne m k k₀ v hk]

theorem registerTokens_postings_superset (id : String) (tokens : List String) :
    ∀ (idx : JMap (List String)) (t : String),
      (mapGet idx t).getD [] ⊆ (mapGet (registerTokens id idx tokens) t).getD [] := by
  induction tokens with
  | nil => intro idx t; exact List.Subset.refl _
  | cons tok rest ih =>
    intro idx t
    rw [registerTokens]
    refine List.Subset.trans ?_ (ih _ t)
    by_cases hk : tok = t
    · subst hk
      rw [mapGet_mapSet_self]
      exact subset_setAdd _ _
    · rw [mapGet_mapSet_ne _ _ _ _ hk]
      exact List.Subset.refl _

/-- `ingestField` leaves `documents` and `totalCorpusLength` untouched and
only ever grows postings sets. -/
theorem ingestField_snd (st : EngineState) (doc : RepositoryDocument)
    (v : String) (w : ℚ) (lim : Option Nat) :
    (ingestField st doc v w lim).2.documents = st.documents ∧
    (ingestField st doc v w lim).2.totalCorpusLength = st.totalCorpusLength ∧
    ∀ t, (mapGet st.invertedIndex t).getD [] ⊆
      (mapGet (ingestField st doc v w lim).2.invertedIndex t).getD [] := by
  rw [ingestField]
  by_cases h1 : v = ""
  · rw [if_pos h1]; exact ⟨rfl, rfl, fun t => List.Subset.refl _⟩
  · rw [if_neg h1]
    by_cases h2 : w ≤ 0
    · rw [if_pos h2]; exact ⟨rfl, rfl, fun t => List.Subset.refl _⟩
    · rw [if_neg h2]
      by_cases h3 : tokenize v lim = []
      · rw [if_pos h3]; exact ⟨rfl, rfl, fun t => List.Subset.refl _⟩
      · rw [if_neg h3]
        exact ⟨rfl, rfl, fun t =>
          registerTokens_postings_superset doc.id (uniqueTokens (tokenize v lim))
            st.invertedIndex t⟩

/-- `ingestText` is `ingestField` without a token limit (the two private
helpers have identical bodies apart from the limit argument). -/
theorem ingestText_eq_ingestField (st : EngineState)
    (doc : RepositoryDocument) (v : String) (w : ℚ) :
    ingestText st doc v w = ingestField st doc v w none := rfl

/-- `add` in terms of `ingestPipeline` (definitional unfolding). -/
theorem add_eq_pipeline (cfg : EngineConfig) (st : EngineState)
    (r : StarredRepository) :
    add cfg st r =
      if mapHas st.documents (buildRepositoryId r) then st
      else
        { (ingestPipeline cfg st r).2 with
            totalCorpusLength :=
              (ingestPipeline cfg st r).2.totalCorpusLength +
                (ingestPipeline cfg st r).1.length
            documents :=
              mapSet (ingestPipeline cfg st r).2.documents
                (buildRepositoryId r) (ingestPipeline cfg st r).1 } := rfl

/-- The ingestion pipeline of `add` leaves `documents` and
`totalCorpusLength` untouched and only grows postings sets. -/
theorem ingestPipeline_snd (cfg : EngineConfig) (st : EngineState)
    (r : StarredRepository) :
    (ingestPipeline cfg st r).2.documents = st.documents ∧
    (ingestPipeline cfg st r).2.totalCorpusLength = st.totalCorpusLength ∧
    ∀ t, (mapGet st.invertedIndex t).getD [] ⊆
      (mapGet (ingestPipeline cfg st r).2.invertedIndex t).getD [] := by
  obtain ⟨a1, b1, c1⟩ := ingestField_snd st
    (RepositoryDocument.mk (buildRepositoryId r) r [] 0) r.owner
    cfg.ownerWeight none
  obtain ⟨a2, b2, c2⟩ := ingestField_snd
    (ingestText st (RepositoryDocument.mk (buildRepositoryId r) r [] 0)
      r.owner cfg.ownerWeight).2
    (ingestText st (RepositoryDocument.mk (buildRepositoryId r) r [] 0)
      r.owner cfg.ownerWeight).1
    r.name cfg.nameWeight none
  obtain ⟨a3, b3, c3⟩ := ingestField_snd
    (ingestText
      (ingestText st (RepositoryDocument.mk (buildRepositoryId r) r [] 0)
        r.owner cfg.ownerWeight).2
      (ingestText st (RepositoryDocument.mk (buildRepositoryId r) r [] 0)
        r.owner cfg.ownerWeight).1
      r.name cfg.nameWeight).2
    (ingestText
      (ingestText st (RepositoryDocument.mk (buildRepositoryId r) r [] 0)
        r.owner cfg.ownerWeight).2
      (ingestText st (RepositoryDocument.mk (buildRepositoryId r) r [] 0)
        r.owner cfg.ownerWeight).1
      r.name cfg.nameWeight).1
    (r.description.getD "") cfg.descriptionWeight none
  obtain ⟨a4, b4, c4⟩ := ingestField_snd
    (ingestField
      (ingestText
        (ingestText st (RepositoryDocument.mk (buildRepositoryId r) r [] 0)
          r.owner cfg.ownerWeight).2
        (ingestText st (RepositoryDocument.mk (buildRepositoryId r) r [] 0)
          r.owner cfg.ownerWeight).1
        r.name cfg.nameWeight).2
      (ingestText
        (ingestText st (RepositoryDocument.mk (buildRepositoryId r) r [] 0)
          r.owner cfg.ownerWeight).2
        (ingestText st (RepositoryDocument.mk (buildRepositoryId r) r [] 0)
          r.owner cfg.ownerWeight).1
        r.name cfg.nameWeight).1
      (r.description.getD "") cfg.descriptionWeight none).2
    (ingestField
      (ingestText
        (ingestText st (RepositoryDocument.mk (buildRepositoryId r) r [] 0)
          r.owner cfg.ownerWeight).2
        (ingestText st (RepositoryDocument.mk (buildRepositoryId r) r [] 0)
          r.owner cfg.ownerWeight).1
        r.name cfg.nameWeight).2
      (ingestText
        (ingestText st (RepositoryDocument.mk (buildRepositoryId r) r [] 0)
          r.owner cfg.ownerWeight).2
        (ingestText st (RepositoryDocument.mk (buildRepositoryId r) r [] 0)
          r.owner cfg.ownerWeight).1
        r.name cfg.nameWeight).1
      (r.description.getD "") cfg.descriptionWeight none).1
    (r.readme.getD "") cfg.readmeWeight cfg.maxReadmeTokens
  exact ⟨a4.trans (a3.trans (a2.trans a1)),
    b4.trans (b3.trans (b2.trans b1)),
    fun t => List.Subset.trans (c1 t)
      (List.Subset.trans (c2 t) (List.Subset.trans (c3 t) (c4 t)))⟩

theorem add_mono (cfg : EngineConfig) (st : EngineState)
    (r : StarredRepository) :
    (∀ t, (mapGet st.invertedIndex t).getD [] ⊆
        (mapGet (add cfg st r).invertedIndex t).getD []) ∧
    (∀ k, (mapGet st.documents k).isSome →
        (mapGet (add cfg st r).documents k).isSome) ∧
    st.documents.length ≤ (add cfg st r).documents.length := by
  rw [add_eq_pipeline]
  obtain ⟨hdocs, htot, hidx⟩ := ingestPipeline_snd cfg st r
  by_cases hhas : mapHas st.documents (buildRepositoryId r)
  · rw [if_pos hhas]
    exact ⟨fun t => List.Subset.refl _, fun k h => h, le_rfl⟩
  · rw [if_neg hhas]
    refine ⟨fun t => hidx t, fun k h => ?_, ?_⟩
    · exact mapGet_mapSet_isSome _ _ _ _ (by rwa [hdocs])
    · show st.documents.length ≤
        (mapSet (ingestPipeline cfg st r).2.documents (buildRepositoryId r)
          (ingestPipeline cfg st r).1).length
      rw [length_mapSet, hdocs]
      by_cases hm : buildRepositoryId r ∈ mapKeys st.documents
      · rw [if_pos hm]
      · rw [if_neg hm]; exact Nat.le_succ _

theorem consolidate_mono (cfg : EngineConfig) (st : EngineState) :
    (∀ t, (mapGet st.invertedIndex t).getD [] ⊆
        (mapGet (consolidate cfg st).invertedIndex t).getD []) ∧
    (∀ k, (mapGet st.documents k).isSome →
        (mapGet (consolidate cfg st).documents k).isSome) ∧
    st.documents.length ≤ (consolidate cfg st).documents.length := by
  refine ⟨fun t => ?_, fun k h => ?_, ?_⟩
  · rw [consolidate_invertedIndex]
    exact List.Subset.refl _
  · by_cases hd : st.documents = []
    · rwa [consolidate_empty cfg st hd]
    · rw [consolidate_documents_get cfg st hd k]
      obtain ⟨d, hd'⟩ := Option.isSome_iff_exists.mp h
      rw [hd']; rfl
  · rw [consolidate_documents_length]

theorem engineStep_mono {cfg : EngineConfig} {s s' : EngineState}
    (h : EngineStep cfg s s') :
    (∀ t, (mapGet s.invertedIndex t).getD [] ⊆
        (mapGet s'.invertedIndex t).getD []) ∧
    (∀ k, (mapGet s.documents k).isSome →
        (mapGet s'.documents k).isSome) ∧
    s.documents.length ≤ s'.documents.length := by
  cases h with
  | add r => exact add_mono cfg s r
  | consolidate => exact consolidate_mono cfg s

theorem engineReaches_mono {cfg : EngineConfig} {s s' : EngineState}
    (h : EngineReaches cfg s s') :
    (∀ t, (mapGet s.invertedIndex t).getD [] ⊆
        (mapGet s'.invertedIndex t).getD []) ∧
    (∀ k, (mapGet s.documents k).isSome →
        (mapGet s'.documents k).isSome) ∧
    s.documents.length ≤ s'.documents.length := by
  induction h with
  | refl => exact ⟨fun t => List.Subset.refl _, fun k h => h, le_rfl⟩
  | tail hreach hstep ih =>
    obtain ⟨hp, hd, hl⟩ := ih
    obtain ⟨hp', hd', hl'⟩ := engineStep_mono hstep
    exact ⟨fun t => List.Subset.trans (hp t) (hp' t),
      fun k h => hd' k (hd k h), le_trans hl hl'⟩

/-- The number of matched documents (score-map keys) only grows when the
postings sets grow and stored documents persist. -/
theorem accumulateScores_keys_length_mono (s s' : EngineState)
    (ts : List String)
    (hp : ∀ t, (mapGet s.invertedIndex t).getD [] ⊆
        (mapGet s'.invertedIndex t).getD [])
    (hd : ∀ k, (mapGet s.documents k).isSome →
        (mapGet s'.documents k).isSome) :
    (mapKeys (accumulateScores s ts ([], [])).1).length ≤
      (mapKeys (accumulateScores s' ts ([], [])).1).length := by
  have hnd : (mapKeys (accumulateScores s ts ([], [])).1).Nodup :=
    accumulateScores_keys_nodup s ts [] [] (by simp [mapKeys])
  have hsub : mapKeys (accumulateScores s ts ([], [])).1 ⊆
      mapKeys (accumulateScores s' ts ([], [])).1 := by
    intro k hk
    rcases (accumulateScores_keys_mem s ts [] [] k).mp hk with hbase |
      ⟨t, ht, hpost, hsome⟩
    · simp [mapKeys] at hbase
    · exact (accumulateScores_keys_mem s' ts [] [] k).mpr
        (Or.inr ⟨t, ht, hp t hpost, hd k hsome⟩)
  exact (List.subperm_of_subset hnd hsub).length_le

/-! ## Frame lemmas for the state-threaded search -/

theorem updateScoresLoopM_eq (kw : String) (st : EngineState)
    (ids : List String) :
    ∀ (scores : JMap ℝ) (matchMap : JMap (List String)),
      updateScoresLoopM kw st ids scores matchMap =
        (st, updateScoresLoop st kw ids scores matchMap) := by
  induction ids with
  | nil => intro s m; rfl
  | cons id rest ih =>
    intro s m
    rw [updateScoresLoopM, updateScoresLoop]
    cases hdoc : mapGet st.documents id with
    | none => simp only [hdoc]; exact ih _ _
    | some doc => simp only [hdoc]; exact ih _ _

theorem updateScoresForKeywordM_eq (st : EngineState) (kw : String)
    (scores : JMap ℝ) (matchMap : JMap (List String)) :
    updateScoresForKeywordM st kw scores matchMap =
      (st, updateScoresForKeyword st kw scores matchMap) := by
  rw [updateScoresForKeywordM, updateScoresForKeyword]
  cases h : mapGet st.invertedIndex kw with
  | none => rfl
  | some ids =>
    simp only []
    exact updateScoresLoopM_eq kw st ids scores matchMap

theorem accumulateScoresM_eq (st : EngineState) (ts : List String) :
    ∀ acc : JMap ℝ × JMap (List String),
      accumulateScoresM st ts acc = (st, accumulateScores st ts acc) := by
  induction ts with
  | nil => intro acc; rfl
  | cons t rest ih =>
    intro acc
    obtain ⟨s, m⟩ := acc
    rw [accumulateScoresM, accumulateScores, updateScoresForKeywordM_eq]
    rcases hup : updateScoresForKeyword st t s m with ⟨s', m'⟩
    exact ih (s', m')

/-- `add` always leaves the repository's id present in the store. -/
theorem add_mapHas_self (cfg : EngineConfig) (st : EngineState)
    (r : StarredRepository) :
    mapHas (add cfg st r).documents (buildRepositoryId r) = true := by
  rw [add_eq_pipeline]
  by_cases hhas : mapHas st.documents (buildRepositoryId r)
  · rwa [if_pos hhas]
  · rw [if_neg hhas]
    show mapHas
      (mapSet (ingestPipeline cfg st r).2.documents (buildRepositoryId r)
        (ingestPipeline cfg st r).1) (buildRepositoryId r) = true
    rw [mapHas, mapGet_mapSet_self]
    rfl

/-! ## Invariants of states built by `add` -/

theorem mem_dedupSeen (x : String) :
    ∀ (l seen : List String),
      x ∈ dedupSeen l seen ↔ x ∈ l ∧ x ∉ seen := by
  intro l
  induction l with
  | nil => intro seen; simp [dedupSeen]
  | cons t ts ih =>
    intro seen
    by_cases ht : t ∈ seen
    · rw [dedupSeen, if_pos ht, ih]
      constructor
      · rintro ⟨hx, hs⟩; exact ⟨List.mem_cons_of_mem t hx, hs⟩
      · rintro ⟨hx, hs⟩
        rcases List.mem_cons.mp hx with rfl | hx'
        · exact absurd ht hs
        · exact ⟨hx', hs⟩
    · rw [dedupSeen, if_neg ht]
      constructor
      · intro hx
        rcases List.mem_cons.mp hx with rfl | hx'
        · exact ⟨List.mem_cons_self _ _, ht⟩
        · obtain ⟨h1, h2⟩ := (ih (t :: seen)).mp hx'
          exact ⟨List.mem_cons_of_mem t h1,
            fun hs => h2 (List.mem_cons_of_mem t hs)⟩
      · rintro ⟨hx, hs⟩
        rcases List.mem_cons.mp hx with rfl | hx'
        · exact List.mem_cons_self _ _
        · by_cases hxt : x = t
          · subst hxt; exact List.mem_cons_self _ _
          · exact List.mem_cons_of_mem t ((ih (t :: seen)).mpr
              ⟨hx', by simp [hxt, hs]⟩)

theorem mem_uniqueTokens (x : String) (l : List String) :
    x ∈ uniqueTokens l ↔ x ∈ l := by
  rw [uniqueTokens, mem_dedupSeen]; simp

theorem mem_mapKeys_applyTokenWeights (w : ℚ) (tokens : List String) :
    ∀ (tf : JMap ℝ) (t : String),
      t ∈ mapKeys (applyTokenWeights w tf tokens) ↔
        t ∈ mapKeys tf ∨ t ∈ tokens := by
  induction tokens with
  | nil => intro tf t; simp [applyTokenWeights]
  | cons tok rest ih =>
    intro tf t
    rw [applyTokenWeights, ih, mem_mapKeys_mapSet]
    constructor
    · rintro ((h | rfl) | h)
      · exact Or.inl h
      · exact Or.inr (List.mem_cons_self _ _)
      · exact Or.inr (List.mem_cons_of_mem _ h)
    · rintro (h | h)
      · exact Or.inl (Or.inl h)
      · rcases List.mem_cons.mp h with rfl | h'
        · exact Or.inl (Or.inr rfl)
        · exact Or.inr h'

theorem applyTokenWeights_nodup (w : ℚ) (tokens : List String) :
    ∀ tf : JMap ℝ, (mapKeys tf).Nodup →
      (mapKeys (applyTokenWeights w tf tokens)).Nodup := by
  induction tokens with
  | nil => intro tf h; exact h
  | cons tok rest ih =>
    intro tf h
    rw [applyTokenWeights]
    exact ih _ (mapKeys_mapSet_nodup _ _ _ h)

theorem mem_mapKeys_registerTokens (id : String) (tokens : List String) :
    ∀ (idx : JMap (List String)) (t : String),
      t ∈ mapKeys (registerTokens id idx tokens) ↔
        t ∈ mapKeys idx ∨ t ∈ tokens := by
  induction tokens with
  | nil => intro idx t; simp [registerTokens]
  | cons tok rest ih =>
    intro idx t
    rw [registerTokens, ih, mem_mapKeys_mapSet]
    constructor
    · rintro ((h | rfl) | h)
      · exact Or.inl h
      · exact Or.inr (List.mem_cons_self _ _)
      · exact Or.inr (List.mem_cons_of_mem _ h)
    · rintro (h | h)
      · exact Or.inl (Or.inl h)
      · rcases List.mem_cons.mp h with rfl | h'
        · exact Or.inl (Or.inr rfl)
        · exact Or.inr h'

/-- One ingestion step preserves the per-document invariants: term keys are
indexed, term keys stay duplicate free, the length stays non-negative, and
existing index keys persist. -/
theorem ingestField_doc (st : EngineState) (doc : RepositoryDocument)
    (v : String) (w : ℚ) (lim : Option Nat) :
    ((∀ t, t ∈ mapKeys doc.termFrequency → t ∈ mapKeys st.invertedIndex) →
      ∀ t, t ∈ mapKeys (ingestField st doc v w lim).1.termFrequency →
        t ∈ mapKeys (ingestField st doc v w lim).2.invertedIndex) ∧
    ((mapKeys doc.termFrequency).Nodup →
      (mapKeys (ingestField st doc v w lim).1.termFrequency).Nodup) ∧
    (0 ≤ doc.length → 0 ≤ (ingestField st doc v w lim).1.length) ∧
    (∀ t, t ∈ mapKeys st.invertedIndex →
      t ∈ mapKeys (ingestField st doc v w lim).2.invertedIndex) := by
  rw [ingestField]
  by_cases h1 : v = ""
  · rw [if_pos h1]; exact ⟨fun h => h, fun h => h, fun h => h, fun t h => h⟩
  · rw [if_neg h1]
    by_cases h2 : w ≤ 0
    · rw [if_pos h2]; exact ⟨fun h => h, fun h => h, fun h => h, fun t h => h⟩
    · rw [if_neg h2]
      by_cases h3 : tokenize v lim = []
      · rw [if_pos h3]
        exact ⟨fun h => h, fun h => h, fun h => h, fun t h => h⟩
      · rw [if_neg h3]
        refine ⟨?_, ?_, ?_, ?_⟩
        · intro hind t ht
          rw [mem_mapKeys_registerTokens]
          rcases (mem_mapKeys_applyTokenWeights w (tokenize v lim)
              doc.termFrequency t).mp ht with hold | htok
          · exact Or.inl (hind t hold)
          · exact Or.inr ((mem_uniqueTokens t _).mpr htok)
        · intro hnd
          exact applyTokenWeights_nodup w (tokenize v lim) _ hnd
        · intro hlen
          have hw : 0 < w := lt_of_not_le h2
          have : (0 : ℚ) ≤ (tokenize v lim).length * w :=
            mul_nonneg (by positivity) (le_of_lt hw)
          show 0 ≤ doc.length + (tokenize v lim).length * w
          linarith
        · intro t ht
          rw [mem_mapKeys_registerTokens]
          exact Or.inl ht

/-- The whole ingestion pipeline of `add` establishes the per-document
invariants for the fresh document and preserves index keys. -/
theorem ingestPipeline_doc (cfg : EngineConfig) (st : EngineState)
    (r : StarredRepository) :
    (∀ t, t ∈ mapKeys (ingestPipeline cfg st r).1.termFrequency →
      t ∈ mapKeys (ingestPipeline cfg st r).2.invertedIndex) ∧
    (mapKeys (ingestPipeline cfg st r).1.termFrequency).Nodup ∧
    0 ≤ (ingestPipeline cfg st r).1.length ∧
    (∀ t, t ∈ mapKeys st.invertedIndex →
      t ∈ mapKeys (ingestPipeline cfg st r).2.invertedIndex) := by
  obtain ⟨i1, n1, l1, k1⟩ := ingestField_doc st
    (RepositoryDocument.mk (buildRepositoryId r) r [] 0) r.owner
    cfg.ownerWeight none
  obtain ⟨i2, n2, l2, k2⟩ := ingestField_doc
    (ingestText st (RepositoryDocument.mk (buildRepositoryId r) r [] 0)
      r.owner cfg.ownerWeight).2
    (ingestText st (RepositoryDocument.mk (buildRepositoryId r) r [] 0)
      r.owner cfg.ownerWeight).1
    r.name cfg.nameWeight none
  obtain ⟨i3, n3, l3, k3⟩ := ingestField_doc
    (ingestText
      (ingestText st (RepositoryDocument.mk (buildRepositoryId r) r [] 0)
        r.owner cfg.ownerWeight).2
      (ingestText st (RepositoryDocument.mk (buildRepositoryId r) r [] 0)
        r.owner cfg.ownerWeight).1
      r.name cfg.nameWeight).2
    (ingestText
      (ingestText st (RepositoryDocument.mk (buildRepositoryId r) r [] 0)
        r.owner cfg.ownerWeight).2
      (ingestText st (RepositoryDocument.mk (buildRepositoryId r) r [] 0)
        r.owner cfg.ownerWeight).1
      r.name cfg.nameWeight).1
    (r.description.getD "") cfg.descriptionWeight none
  obtain ⟨i4, n4, l4, k4⟩ := ingestField_doc
    (ingestField
      (ingestText
        (ingestText st (RepositoryDocument.mk (buildRepositoryId r) r [] 0)
          r.owner cfg.ownerWeight).2
        (ingestText st (RepositoryDocument.mk (buildRepositoryId r) r [] 0)
          r.owner cfg.ownerWeight).1
        r.name cfg.nameWeight).2
      (ingestText
        (ingestText st (RepositoryDocument.mk (buildRepositoryId r) r [] 0)
          r.owner cfg.ownerWeight).2
        (ingestText st (RepositoryDocument.mk (buildRepositoryId r) r [] 0)
          r.owner cfg.ownerWeight).1
        r.name cfg.nameWeight).1
      (r.description.getD "") cfg.descriptionWeight none).2
    (ingestField
      (ingestText
        (ingestText st (RepositoryDocument.mk (buildRepositoryId r) r [] 0)
          r.owner cfg.ownerWeight).2
        (ingestText st (RepositoryDocument.mk (buildRepositoryId r) r [] 0)
          r.owner cfg.ownerWeight).1
        r.name cfg.nameWeight).2
      (ingestText
        (ingestText st (RepositoryDocument.mk (buildRepositoryId r) r [] 0)
          r.owner cfg.ownerWeight).2
        (ingestText st (RepositoryDocument.mk (buildRepositoryId r) r [] 0)
          r.owner cfg.ownerWeight).1
        r.name cfg.nameWeight).1
      (r.description.getD "") cfg.descriptionWeight none).1
    (r.readme.getD "") cfg.readmeWeight cfg.maxReadmeTokens
  refine ⟨?_, ?_, ?_, ?_⟩
  · exact i4 (i3 (i2 (i1 (by intro t ht; simp [mapKeys] at ht))))
  · exact n4 (n3 (n2 (n1 (by simp [mapKeys]))))
  · exact l4 (l3 (l2 (l1 (by norm_num))))
  · intro t ht
    exact k4 t (k3 t (k2 t (k1 t ht)))

/-- Any state built from the fresh engine by `add` calls only satisfies:
non-negative corpus length, and for every stored document, indexed and
duplicate-free term keys with a non-negative length. -/
theorem builtByAdds_invariant {cfg : EngineConfig} {st : EngineState}
    (h : BuiltByAdds cfg st) :
    0 ≤ st.totalCorpusLength ∧
    ∀ id doc, mapGet st.documents id = some doc →
      (∀ t, t ∈ mapKeys doc.termFrequency → t ∈ mapKeys st.invertedIndex) ∧
      (mapKeys doc.termFrequency).Nodup ∧ 0 ≤ doc.length := by
  induction h with
  | empty =>
    refine ⟨le_refl 0, ?_⟩
    intro id doc hdoc
    simp [emptyEngine, mapGet] at hdoc
  | add r hbuilt ih =>
    rename_i st'
    obtain ⟨htot, hdocs⟩ := ih
    rw [add_eq_pipeline]
    by_cases hhas : mapHas st'.documents (buildRepositoryId r)
    · rw [if_pos hhas]; exact ⟨htot, hdocs⟩
    · rw [if_neg hhas]
      obtain ⟨pi, pn, pl, pk⟩ := ingestPipeline_doc cfg st' r
      obtain ⟨pdocs, ptot, _⟩ := ingestPipeline_snd cfg st' r
      constructor
      · show (0 : ℚ) ≤ (ingestPipeline cfg st' r).2.totalCorpusLength +
          (ingestPipeline cfg st' r).1.length
        rw [ptot]
        linarith
      · intro id doc hdoc
        show (∀ t, t ∈ mapKeys doc.termFrequency →
            t ∈ mapKeys (ingestPipeline cfg st' r).2.invertedIndex) ∧
          (mapKeys doc.termFrequency).Nodup ∧ 0 ≤ doc.length
        by_cases hid : buildRepositoryId r = id
        · subst hid
          have : mapGet
              (mapSet (ingestPipeline cfg st' r).2.documents
                (buildRepositoryId r) (ingestPipeline cfg st' r).1)
              (buildRepositoryId r) = some (ingestPipeline cfg st' r).1 :=
            mapGet_mapSet_self _ _ _
          rw [this] at hdoc
          obtain rfl := Option.some.inj hdoc
          exact ⟨pi, pn, pl⟩
        · have : mapGet
              (mapSet (ingestPipeline cfg st' r).2.documents
                (buildRepositoryId r) (ingestPipeline cfg st' r).1) id =
              mapGet (ingestPipeline cfg st' r).2.documents id :=
            mapGet_mapSet_ne _ _ _ _ hid
          rw [this, pdocs] at hdoc
          obtain ⟨h1, h2, h3⟩ := hdocs id doc hdoc
          exact ⟨fun t ht => pk t (h1 t ht), h2, h3⟩

theorem consolidateStats_avg (cfg : EngineConfig) (st : EngineState) :
    (consolidateStats cfg st).averageDocumentLength =
      st.totalCorpusLength / ((max st.documents.length 1 : Nat) : ℚ) := rfl

theorem consolidateStats_idf_get (cfg : EngineConfig) (st : EngineState)
    (t : String) :
    mapGet (consolidateStats cfg st).inverseDocumentFrequency t =
      (mapGet st.invertedIndex t).map (fun postings =>
        Real.log
          (((st.documents.length : ℝ) - (postings.length : ℝ) + 1/2) /
              ((postings.length : ℝ) + 1/2)
            + (cfg.k : ℝ))) := by
  show mapGet
      ((st.invertedIndex.map (fun p => (p.1, p.2.length))).map (fun p =>
        (p.1,
          Real.log
            (((st.documents.length : ℝ) - (p.2 : ℝ) + 1/2) / ((p.2 : ℝ) + 1/2)
              + (cfg.k : ℝ))))) t = _
  rw [mapGet_mapValues (fun (p : String × Nat) =>
    Real.log
      (((st.documents.length : ℝ) - (p.2 : ℝ) + 1/2) / ((p.2 : ℝ) + 1/2)
        + (cfg.k : ℝ)))]
  rw [mapGet_mapValues (fun (p : String × List String) => List.length p.2)]
  cases mapGet st.invertedIndex t <;> rfl

theorem normalizeDocumentFrequencies_eq (cfg : EngineConfig)
    (st : EngineState) (doc : RepositoryDocument) :
    normalizeDocumentFrequencies cfg st doc =
      normalizeEntries cfg st.inverseDocumentFrequency
        (1 - cfg.b +
          cfg.b *
            (doc.length /
              (if st.averageDocumentLength = 0 then 1
               else st.averageDocumentLength)))
        doc.termFrequency [] := rfl

/-! ## Concrete scenario computations -/

theorem add_emptyEngine_repoSolo :
    add defaultConfig emptyEngine repoSolo = soloAdded := by
  have h1 : tokenize "a" none = ["a"] := by decide
  simp +decide [add, ingestText, ingestField, applyTokenWeights,
    registerTokens, mapHas, mapGet, mapSet, setAdd, buildRepositoryId, h1,
    uniqueTokens, dedupSeen, emptyEngine, defaultConfig, repoSolo, soloAdded]
  norm_num

theorem consolidate_soloAdded :
    consolidate defaultConfig soloAdded = soloConsolidated := by
  norm_num [consolidate, normalizeDocumentFrequencies, normalizeEntries,
    mapGet, mapSet, soloAdded, soloConsolidated, defaultConfig]

theorem tok_ao : tokenize "ao" none = ["ao"] := by decide

theorem tok_name4 : tokenize "term p q r" none = ["term", "p", "q", "r"] := by
  decide

theorem tok_bo : tokenize "bo" none = ["bo"] := by decide

theorem tok_nb : tokenize "nb" none = ["nb"] := by decide

theorem tok_term : tokenize "term" none = ["term"] := by decide

theorem tok_nc : tokenize "nc" none = ["nc"] := by decide

theorem tok_fill : tokenize "fill" none = ["fill"] := by decide

theorem tok_pad : tokenize "pad" none = ["pad"] := by decide

theorem add_cexNameDoc : add defaultConfig emptyEngine cexNameDoc =
    trioStep1 := by
  simp +decide [add, ingestText, ingestField, applyTokenWeights,
    registerTokens, mapHas, mapGet, mapSet, setAdd, buildRepositoryId,
    tok_ao, tok_name4, uniqueTokens, dedupSeen, emptyEngine, defaultConfig,
    cexNameDoc, trioStep1]
  norm_num

theorem add_cexDescDoc : add defaultConfig trioStep1 cexDescDoc =
    trioStep2 := by
  simp +decide [add, ingestText, ingestField, applyTokenWeights,
    registerTokens, mapHas, mapGet, mapSet, setAdd, buildRepositoryId,
    tok_bo, tok_nb, tok_term, uniqueTokens, dedupSeen, defaultConfig,
    cexDescDoc, trioStep1, trioStep2]
  norm_num [mapSet]
  simp +decide

theorem add_cexOwnerDoc : add defaultConfig trioStep2 cexOwnerDoc =
    trioAdded := by
  simp +decide [add, ingestText, ingestField, applyTokenWeights,
    registerTokens, mapHas, mapGet, mapSet, setAdd, buildRepositoryId,
    tok_term, tok_nc, uniqueTokens, dedupSeen, defaultConfig, cexOwnerDoc,
    trioStep2, trioAdded]
  norm_num

theorem add_trio_eq :
    add defaultConfig
      (add defaultConfig (add defaultConfig emptyEngine cexNameDoc)
        cexDescDoc) cexOwnerDoc = trioAdded := by
  rw [add_cexNameDoc, add_cexDescDoc, add_cexOwnerDoc]

theorem add_eqNameDoc : add defaultConfig emptyEngine eqNameDoc =
    eqTrioStep1 := by
  simp +decide [add, ingestText, ingestField, applyTokenWeights,
    registerTokens, mapHas, mapGet, mapSet, setAdd, buildRepositoryId,
    tok_ao, tok_term, tok_fill, uniqueTokens, dedupSeen, emptyEngine,
    defaultConfig, eqNameDoc, eqTrioStep1]
  norm_num [mapSet]

theorem add_eqDescDoc : add defaultConfig eqTrioStep1 cexDescDoc =
    eqTrioStep2 := by
  simp +decide [add, ingestText, ingestField, applyTokenWeights,
    registerTokens, mapHas, mapGet, mapSet, setAdd, buildRepositoryId,
    tok_bo, tok_nb, tok_term, uniqueTokens, dedupSeen, defaultConfig,
    cexDescDoc, eqTrioStep1, eqTrioStep2]
  norm_num [mapSet]
  simp +decide

theorem add_eqOwnerDoc : add defaultConfig eqTrioStep2 eqOwnerDoc =
    eqTrioAdded := by
  simp +decide [add, ingestText, ingestField, applyTokenWeights,
    registerTokens, mapHas, mapGet, mapSet, setAdd, buildRepositoryId,
    tok_term, tok_nc, tok_pad, uniqueTokens, dedupSeen, defaultConfig,
    eqOwnerDoc, eqTrioStep2, eqTrioAdded]
  norm_num [mapSet]
  simp +decide

theorem add_eqTrio_eq :
    add defaultConfig
      (add defaultConfig (add defaultConfig emptyEngine eqNameDoc)
        cexDescDoc) eqOwnerDoc = eqTrioAdded := by
  rw [add_eqNameDoc, add_eqDescDoc, add_eqOwnerDoc]

/-! ## Three-document search scenarios -/

theorem consolidated_term_score (st : EngineState) (hne : st.documents ≠ [])
    (t : String) (postings : List String)
    (hpost : mapGet st.invertedIndex t = some postings)
    (id : String) (doc : RepositoryDocument)
    (hdoc : mapGet st.documents id = some doc)
    (freq : ℝ) (hfreq : mapGet doc.termFrequency t = some freq)
    (hnd : (mapKeys doc.termFrequency).Nodup) (hf : ¬ freq ≤ 0)
    (nf : ℚ)
    (hnf : 1 - defaultConfig.b +
        defaultConfig.b *
          (doc.length /
            (if (consolidateStats defaultConfig st).averageDocumentLength = 0
             then 1
             else (consolidateStats defaultConfig
                st).averageDocumentLength)) = nf)
    (hden : freq + (defaultConfig.k1 : ℝ) * (nf : ℝ) ≠ 0) :
    ∃ doc', mapGet (consolidate defaultConfig st).documents id = some doc' ∧
      mapGet doc'.termFrequency t =
        some
          ((freq * ((defaultConfig.k1 : ℝ) + 1) /
              (freq + (defaultConfig.k1 : ℝ) * (nf : ℝ)) +
              (defaultConfig.delta : ℝ)) *
            Real.log
              (((st.documents.length : ℝ) - (postings.length : ℝ) + 1/2) /
                  ((postings.length : ℝ) + 1/2) + (defaultConfig.k : ℝ))) := by
  rw [consolidate_documents_get defaultConfig st hne id, hdoc]
  refine ⟨_, rfl, ?_⟩
  show mapGet (normalizeDocumentFrequencies defaultConfig
      (consolidateStats defaultConfig st) doc) t = _
  rw [normalizeDocumentFrequencies_eq, hnf]
  have hidf : mapGet (consolidateStats defaultConfig
      st).inverseDocumentFrequency t =
      some (Real.log
        (((st.documents.length : ℝ) - (postings.length : ℝ) + 1/2) /
            ((postings.length : ℝ) + 1/2) + (defaultConfig.k : ℝ))) := by
    rw [consolidateStats_idf_get, hpost]
    rfl
  exact normalizeEntries_get_of_pos defaultConfig _ nf t freq _
    doc.termFrequency [] hnd hfreq hidf hf hden

theorem accumulateScores_three (C : EngineState) (t ida idb idc : String)
    (sa sb sc : ℝ) (da db dc : RepositoryDocument)
    (hab : ida ≠ idb) (hac : ida ≠ idc) (hbc : idb ≠ idc)
    (hpost : mapGet C.invertedIndex t = some [ida, idb, idc])
    (hga : mapGet C.documents ida = some da)
    (hgb : mapGet C.documents idb = some db)
    (hgc : mapGet C.documents idc = some dc)
    (hsa : mapGet da.termFrequency t = some sa)
    (hsb : mapGet db.termFrequency t = some sb)
    (hsc : mapGet dc.termFrequency t = some sc) :
    accumulateScores C [t] ([], []) =
      ([(ida, 0 + sa), (idb, 0 + sb), (idc, 0 + sc)],
       [(ida, [t]), (idb, [t]), (idc, [t])]) := by
  simp [accumulateScores, updateScoresForKeyword, hpost, updateScoresLoop,
    hga, hgb, hgc, hsa, hsb, hsc, mapGet, mapSet, setAdd, hab, hac, hbc]

theorem search_three_first (C : EngineState) (t ida idb idc : String)
    (sa sb sc : ℝ) (da db dc : RepositoryDocument)
    (hab : ida ≠ idb) (hac : ida ≠ idc) (hbc : idb ≠ idc)
    (hne : C.documents.length ≠ 0)
    (hkw : normalizeKeywords [t] defaultConfig.maxKeywords = [t])
    (hpost : mapGet C.invertedIndex t = some [ida, idb, idc])
    (hga : mapGet C.documents ida = some da)
    (hgb : mapGet C.documents idb = some db)
    (hgc : mapGet C.documents idc = some dc)
    (hsa : mapGet da.termFrequency t = some sa)
    (hsb : mapGet db.termFrequency t = some sb)
    (hsc : mapGet dc.termFrequency t = some sc)
    (hba : sb ≤ sa) (hcb : sc ≤ sb) (opts : Option SearchOptions) :
    ∃ r1 rest, search defaultConfig C [t] opts = Except.ok (r1 :: rest) ∧
      r1.id = ida := by
  have hacc := accumulateScores_three C t ida idb idc sa sb sc da db dc
    hab hac hbc hpost hga hgb hgc hsa hsb hsc
  rw [search, if_neg hne, hkw]
  have hkne : ([t] : List String) ≠ [] := by simp
  rw [if_neg hkne, hacc]
  have hsort : List.insertionSort
      (fun a b : String × ℝ => b.2 ≤ a.2)
      [(ida, 0 + sa), (idb, 0 + sb), (idc, 0 + sc)] =
      [(ida, 0 + sa), (idb, 0 + sb), (idc, 0 + sc)] := by
    rw [List.insertionSort, List.insertionSort, List.insertionSort,
      List.insertionSort, List.orderedInsert, List.orderedInsert,
      if_pos (show (0 + sc : ℝ) ≤ 0 + sb by simpa using hcb),
      List.orderedInsert,
      if_pos (show (0 + sb : ℝ) ≤ 0 + sa by simpa using hba)]
  simp only [hsort]
  set n := (Int.toNat (max ((opts.bind SearchOptions.limit).getD 10) 1)) with hn
  have hn1 : 1 ≤ n := by
    rw [hn]
    have h1 : (1 : ℤ) ≤ max ((opts.bind SearchOptions.limit).getD 10) 1 :=
      le_max_right _ _
    omega
  obtain ⟨m, hm⟩ : ∃ m, n = m + 1 := ⟨n - 1, by omega⟩
  rw [hm, List.take_succ_cons, buildResults]
  simp only [hga]
  have hrest : ∀ p ∈ List.take m [(idb, 0 + sb), (idc, 0 + sc)],
      (mapGet C.documents p.1).isSome := by
    intro p hp
    have hp2 : p ∈ [(idb, 0 + sb), (idc, 0 + sc)] := List.mem_of_mem_take hp
    simp only [List.mem_cons, List.not_mem_nil, or_false] at hp2
    rcases hp2 with rfl | rfl
    · rw [hgb]; rfl
    · rw [hgc]; rfl
  obtain ⟨rs, hok, _⟩ := buildResults_ok C
    [(ida, [t]), (idb, [t]), (idc, [t])] (List.take m [(idb, 0 + sb), (idc, 0 + sc)]) hrest
  rw [hok]
  exact ⟨_, rs, rfl, rfl⟩

theorem search_three_second (C : EngineState) (t ida idb idc : String)
    (sa sb sc : ℝ) (da db dc : RepositoryDocument)
    (hab : ida ≠ idb) (hac : ida ≠ idc) (hbc : idb ≠ idc)
    (hne : C.documents.length ≠ 0)
    (hkw : normalizeKeywords [t] defaultConfig.maxKeywords = [t])
    (hpost : mapGet C.invertedIndex t = some [ida, idb, idc])
    (hga : mapGet C.documents ida = some da)
    (hgb : mapGet C.documents idb = some db)
    (hgc : mapGet C.documents idc = some dc)
    (hsa : mapGet da.termFrequency t = some sa)
    (hsb : mapGet db.termFrequency t = some sb)
    (hsc : mapGet dc.termFrequency t = some sc)
    (hba : ¬ sb ≤ sa) (hcb : sc ≤ sb) (hca : sc ≤ sa)
    (opts : Option SearchOptions) :
    ∃ r1 rest, search defaultConfig C [t] opts = Except.ok (r1 :: rest) ∧
      r1.id = idb := by
  have hacc := accumulateScores_three C t ida idb idc sa sb sc da db dc
    hab hac hbc hpost hga hgb hgc hsa hsb hsc
  rw [search, if_neg hne, hkw]
  have hkne : ([t] : List String) ≠ [] := by simp
  rw [if_neg hkne, hacc]
  have hsort : List.insertionSort
      (fun a b : String × ℝ => b.2 ≤ a.2)
      [(ida, 0 + sa), (idb, 0 + sb), (idc, 0 + sc)] =
      [(idb, 0 + sb), (ida, 0 + sa), (idc, 0 + sc)] := by
    rw [List.insertionSort, List.insertionSort, List.insertionSort,
      List.insertionSort, List.orderedInsert, List.orderedInsert,
      if_pos (show (0 + sc : ℝ) ≤ 0 + sb by simpa using hcb),
      List.orderedInsert,
      if_neg (show ¬ ((0 + sb : ℝ) ≤ 0 + sa) by simpa using hba),
      List.orderedInsert,
      if_pos (show (0 + sc : ℝ) ≤ 0 + sa by simpa using hca)]
  simp only [hsort]
  set n := (Int.toNat (max ((opts.bind SearchOptions.limit).getD 10) 1)) with hn
  have hn1 : 1 ≤ n := by
    rw [hn]
    have h1 : (1 : ℤ) ≤ max ((opts.bind SearchOptions.limit).getD 10) 1 :=
      le_max_right _ _
    omega
  obtain ⟨m, hm⟩ : ∃ m, n = m + 1 := ⟨n - 1, by omega⟩
  rw [hm, List.take_succ_cons, buildResults]
  simp only [hgb]
  have hrest : ∀ p ∈ List.take m [(ida, 0 + sa), (idc, 0 + sc)],
      (mapGet C.documents p.1).isSome := by
    intro p hp
    have hp2 : p ∈ [(ida, 0 + sa), (idc, 0 + sc)] := List.mem_of_mem_take hp
    simp only [List.mem_cons, List.not_mem_nil, or_false] at hp2
    rcases hp2 with rfl | rfl
    · rw [hga]; rfl
    · rw [hgc]; rfl
  obtain ⟨rs, hok, _⟩ := buildResults_ok C
    [(ida, [t]), (idb, [t]), (idc, [t])]
    (List.take m [(ida, 0 + sa), (idc, 0 + sc)]) hrest
  rw [hok]
  exact ⟨_, rs, rfl, rfl⟩

/-! ## Claim theorems -/

/-- C1 counterexample.  Consolidation is NOT idempotent: on the
one-document corpus `a/a`, the first `consolidate` stores the score
`(147/74)·ln(4/3)` for the term `a`, and a second `consolidate`
re-normalizes that already-normalized score to a strictly smaller value, so
the state changes. -/
theorem consolidate_not_idempotent_cex :
    consolidate defaultConfig
        (consolidate defaultConfig (add defaultConfig emptyEngine repoSolo)) ≠
      consolidate defaultConfig (add defaultConfig emptyEngine repoSolo) := by
  rw [add_emptyEngine_repoSolo, consolidate_soloAdded]
  intro heq
  have hL0 : 0 < Real.log (4/3) := Real.log_pos (by norm_num)
  have hL3 : Real.log (4/3) ≤ 1/3 := by
    have h := Real.log_le_sub_one_of_pos (show (0:ℝ) < 4/3 by norm_num)
    linarith
  have hne : soloConsolidated.documents ≠ [] := by simp [soloConsolidated]
  have hdoc : mapGet soloConsolidated.documents "a/a" =
      some (RepositoryDocument.mk "a/a" repoSolo
        [("a", 147/74 * Real.log (4/3))] (5/2)) := by
    simp [soloConsolidated, mapGet]
  have hd := consolidate_documents_get defaultConfig soloConsolidated hne "a/a"
  rw [hdoc, heq, hdoc] at hd
  have hget := congrArg (fun m => mapGet m "a")
    (congrArg RepositoryDocument.termFrequency (Option.some.inj hd))
  simp only [] at hget
  have hleft : mapGet
      (RepositoryDocument.mk "a/a" repoSolo
        [("a", 147/74 * Real.log (4/3))] (5/2)).termFrequency "a" =
      some (147/74 * Real.log (4/3)) := by simp [mapGet]
  have hidf : mapGet (consolidateStats defaultConfig
      soloConsolidated).inverseDocumentFrequency "a" =
      some (Real.log (4/3)) := by
    rw [consolidateStats_idf_get]
    simp [soloConsolidated, mapGet]
    norm_num [defaultConfig]
  have hnf : (1 - defaultConfig.b +
      defaultConfig.b *
        ((RepositoryDocument.mk "a/a" repoSolo
            [("a", 147/74 * Real.log (4/3))] (5/2)).length /
          (if (consolidateStats defaultConfig
                soloConsolidated).averageDocumentLength = 0 then 1
           else (consolidateStats defaultConfig
                soloConsolidated).averageDocumentLength))) = 1 := by
    rw [consolidateStats_avg]
    norm_num [soloConsolidated, defaultConfig]
  have hscore : mapGet (normalizeDocumentFrequencies defaultConfig
      (consolidateStats defaultConfig soloConsolidated)
      (RepositoryDocument.mk "a/a" repoSolo
        [("a", 147/74 * Real.log (4/3))] (5/2))) "a" =
      some ((147/74 * Real.log (4/3) * ((defaultConfig.k1 : ℝ) + 1) /
          (147/74 * Real.log (4/3) + (defaultConfig.k1 : ℝ) * ((1 : ℚ) : ℝ)) +
          (defaultConfig.delta : ℝ)) * Real.log (4/3)) := by
    rw [normalizeDocumentFrequencies_eq, hnf]
    exact normalizeEntries_get_of_pos defaultConfig _ 1 "a"
      (147/74 * Real.log (4/3)) (Real.log (4/3)) _ []
      (by simp [mapKeys]) (by simp [mapGet]) hidf
      (not_le.mpr (by positivity))
      (by norm_num [defaultConfig]; positivity)
  rw [hleft, hscore] at hget
  have heqv := Option.some.inj hget
  norm_num [defaultConfig] at heqv
  set L := Real.log (4/3) with hL
  have hs0 : (0:ℝ) < 147/74 * L := by positivity
  have hb1 : (147/74 * L) * (11/5) / ((147/74 * L) + 6/5) ≤
      (147/74 * L) * (11/5) / (6/5) := by
    apply div_le_div_of_nonneg_left (by positivity) (by norm_num)
    linarith
  have hb2 : ((147/74 * L) * (11/5) / ((147/74 * L) + 6/5) + 1/2) * L ≤
      ((147/74 * L) * (11/5) / (6/5) + 1/2) * L := by
    apply mul_le_mul_of_nonneg_right (by linarith) (le_of_lt hL0)
  have hsq : L * L ≤ L * (1/3) := mul_le_mul_of_nonneg_left hL3 (le_of_lt hL0)
  have hb3 : ((147/74 * L) * (11/5) / (6/5) + 1/2) * L < 147/74 * L := by
    have he : (147/74 * L) * (11/5) / (6/5) = 539/148 * L := by ring
    rw [he]
    nlinarith
  linarith [heqv, hb2, hb3]

/-- C1 amended.  What a second `consolidate()` with no intervening `add`
does preserve: it recomputes identical corpus statistics
(`averageDocumentLength`, `documentFrequency`, `inverseDocumentFrequency`)
and leaves `invertedIndex`, `totalCorpusLength` and the stored document ids
unchanged.  Only the per-document `termFrequency` scores (and hence
subsequent search scores) are re-normalized and in general change, as the
counterexample shows. -/
theorem consolidate_twice_statistics (cfg : EngineConfig)
    (st : EngineState) :
    (consolidate cfg (consolidate cfg st)).averageDocumentLength =
      (consolidate cfg st).averageDocumentLength ∧
    (consolidate cfg (consolidate cfg st)).documentFrequency =
      (consolidate cfg st).documentFrequency ∧
    (consolidate cfg (consolidate cfg st)).inverseDocumentFrequency =
      (consolidate cfg st).inverseDocumentFrequency ∧
    (consolidate cfg (consolidate cfg st)).invertedIndex =
      (consolidate cfg st).invertedIndex ∧
    (consolidate cfg (consolidate cfg st)).totalCorpusLength =
      (consolidate cfg st).totalCorpusLength ∧
    mapKeys (consolidate cfg (consolidate cfg st)).documents =
      mapKeys (consolidate cfg st).documents := by
  by_cases hd : st.documents = []
  · rw [consolidate_empty cfg st hd, consolidate_empty cfg st hd]
    exact ⟨rfl, rfl, rfl, rfl, rfl, rfl⟩
  · have hlen : (consolidate cfg st).documents.length =
        st.documents.length := consolidate_documents_length cfg st
    have hC : (consolidate cfg st).documents ≠ [] := by
      intro h0
      apply hd
      have := hlen
      rw [h0] at this
      exact List.length_eq_zero.mp this.symm
    refine ⟨?_, ?_, ?_, ?_, ?_, ?_⟩
    · rw [consolidate_averageDocumentLength cfg _ hC,
        consolidate_averageDocumentLength cfg st hd,
        consolidate_totalCorpusLength, hlen]
    · rw [consolidate_documentFrequency cfg _ hC,
        consolidate_documentFrequency cfg st hd, consolidate_invertedIndex]
    · rw [consolidate_inverseDocumentFrequency cfg _ hC,
        consolidate_inverseDocumentFrequency cfg st hd,
        consolidate_invertedIndex, hlen]
    · rw [consolidate_invertedIndex, consolidate_invertedIndex]
    · rw [consolidate_totalCorpusLength, consolidate_totalCorpusLength]
    · rw [consolidate_documentKeys, consolidate_documentKeys]

/-- C2 counterexample.  Searching before any consolidation is NOT empty:
with the single added (unconsolidated) document `a/a`, `search(["a"])`
returns that document, scored by its raw accumulated weight `2.5`. -/
theorem search_before_consolidate_cex :
    search defaultConfig (add defaultConfig emptyEngine repoSolo) ["a"] none ≠
      Except.ok [] := by
  rw [add_emptyEngine_repoSolo]
  have hres : search defaultConfig soloAdded ["a"] none =
      Except.ok [RepositorySearchResult.mk "a/a" repoSolo (0 + 5/2) ["a"]] := by
    have hkw : normalizeKeywords ["a"] 64 = ["a"] := by decide
    norm_num [search, hkw, accumulateScores, updateScoresForKeyword,
      updateScoresLoop, mapGet, mapSet, setAdd, buildResults, soloAdded,
      defaultConfig, List.insertionSort, List.orderedInsert]
    simp +decide
  rw [hres]
  intro h
  simp at h

/-- C2 amended.  What does hold: `search` on an engine holding zero
documents returns the empty result list for every keyword list and every
option (before consolidation with added documents, `search` instead returns
results scored by the raw accumulated weights). -/
theorem search_zero_documents_empty (cfg : EngineConfig) (st : EngineState)
    (h : st.documents = []) (kws : List String)
    (opts : Option SearchOptions) : search cfg st kws opts = Except.ok [] :=
  search_empty_docs cfg st h kws opts

/-- Witness for the amended C2: the fresh engine with any keywords. -/
theorem search_zero_documents_empty_witness :
    emptyEngine.documents = [] ∧
    search defaultConfig emptyEngine ["react"] none = Except.ok [] :=
  ⟨rfl, search_zero_documents_empty defaultConfig emptyEngine rfl ["react"]
    none⟩

/-- C3.  Postcondition of the first `consolidate()` on a corpus of `N ≥ 1`
documents built only by `add` calls: the IDF of every indexed token `t` with
document frequency `df = |postings(t)|` is
`ln((N − df + 0.5) / (df + 0.5) + k)`, the average document length becomes
`totalCorpusLength / N`, and every stored document's term entry with raw
accumulated weight `freq > 0` is replaced by
`(freq·(k1+1) / (freq + k1·(1 − b + b·(length/avg))) + delta) · idf[t]`
(with `1` substituted for a zero average).  Stated for any configuration
with `0 ≤ k1` and `0 ≤ b ≤ 1` (the default configuration qualifies). -/
theorem consolidate_postcondition (cfg : EngineConfig) (st : EngineState)
    (hbuilt : BuiltByAdds cfg st) (hne : st.documents ≠ [])
    (hk1 : 0 ≤ cfg.k1) (hb0 : 0 ≤ cfg.b) (hb1 : cfg.b ≤ 1)
    (t : String) (postings : List String)
    (hpost : mapGet st.invertedIndex t = some postings)
    (id : String) (doc : RepositoryDocument)
    (hdoc : mapGet st.documents id = some doc)
    (freq : ℝ) (hfreq : mapGet doc.termFrequency t = some freq)
    (hpos : 0 < freq) :
    mapGet (consolidate cfg st).inverseDocumentFrequency t =
      some (Real.log
        (((st.documents.length : ℝ) - (postings.length : ℝ) + 1/2) /
            ((postings.length : ℝ) + 1/2) + (cfg.k : ℝ))) ∧
    (consolidate cfg st).averageDocumentLength =
      st.totalCorpusLength / (st.documents.length : ℚ) ∧
    ∃ doc', mapGet (consolidate cfg st).documents id = some doc' ∧
      mapGet doc'.termFrequency t =
        some
          ((freq * ((cfg.k1 : ℝ) + 1) /
              (freq +
                (cfg.k1 : ℝ) *
                  (((1 - cfg.b +
                      cfg.b *
                        (doc.length /
                          (if st.totalCorpusLength /
                                (st.documents.length : ℚ) = 0 then 1
                           else st.totalCorpusLength /
                                (st.documents.length : ℚ))) : ℚ) : ℝ))) +
              (cfg.delta : ℝ)) *
            Real.log
              (((st.documents.length : ℝ) - (postings.length : ℝ) + 1/2) /
                  ((postings.length : ℝ) + 1/2) + (cfg.k : ℝ))) := by
  obtain ⟨htot, hdocs⟩ := builtByAdds_invariant hbuilt
  obtain ⟨hind, hnd, hlen⟩ := hdocs id doc hdoc
  have hN : 0 < st.documents.length := List.length_pos.mpr hne
  have hmax : max st.documents.length 1 = st.documents.length :=
    Nat.max_eq_left hN
  have havg : (consolidateStats cfg st).averageDocumentLength =
      st.totalCorpusLength / (st.documents.length : ℚ) := by
    rw [consolidateStats_avg, hmax]
  refine ⟨?_, ?_, ?_⟩
  · rw [consolidate_idf_get cfg st hne t, hpost]
    rfl
  · rw [consolidate_averageDocumentLength cfg st hne, hmax]
  · rw [consolidate_documents_get cfg st hne id, hdoc]
    refine ⟨_, rfl, ?_⟩
    show mapGet (normalizeDocumentFrequencies cfg (consolidateStats cfg st)
        doc) t = _
    rw [normalizeDocumentFrequencies_eq, havg]
    have hidf : mapGet (consolidateStats cfg st).inverseDocumentFrequency t =
        some (Real.log
          (((st.documents.length : ℝ) - (postings.length : ℝ) + 1/2) /
              ((postings.length : ℝ) + 1/2) + (cfg.k : ℝ))) := by
      rw [consolidateStats_idf_get, hpost]
      rfl
    have hnf : (0 : ℚ) ≤ 1 - cfg.b +
        cfg.b *
          (doc.length /
            (if st.totalCorpusLength / (st.documents.length : ℚ) = 0 then 1
             else st.totalCorpusLength / (st.documents.length : ℚ))) := by
      have havg0 : (0 : ℚ) ≤
          st.totalCorpusLength / (st.documents.length : ℚ) :=
        div_nonneg htot (by positivity)
      have hal : (0 : ℚ) ≤
          (if st.totalCorpusLength / (st.documents.length : ℚ) = 0 then 1
           else st.totalCorpusLength / (st.documents.length : ℚ)) := by
        split
        · norm_num
        · exact havg0
      have : (0 : ℚ) ≤ doc.length /
          (if st.totalCorpusLength / (st.documents.length : ℚ) = 0 then 1
           else st.totalCorpusLength / (st.documents.length : ℚ)) :=
        div_nonneg hlen hal
      nlinarith
    have hden : freq +
        (cfg.k1 : ℝ) *
          ((1 - cfg.b +
              cfg.b *
                (doc.length /
                  (if st.totalCorpusLength /
                        (st.documents.length : ℚ) = 0 then 1
                   else st.totalCorpusLength /
                        (st.documents.length : ℚ))) : ℚ) : ℝ) ≠ 0 := by
      have h1 : (0 : ℝ) ≤ (cfg.k1 : ℝ) := by exact_mod_cast hk1
      have h2 : (0 : ℝ) ≤
          ((1 - cfg.b +
              cfg.b *
                (doc.length /
                  (if st.totalCorpusLength /
                        (st.documents.length : ℚ) = 0 then 1
                   else st.totalCorpusLength /
                        (st.documents.length : ℚ))) : ℚ) : ℝ) := by
        exact_mod_cast hnf
      positivity
    exact normalizeEntries_get_of_pos cfg _ _ t freq _ doc.termFrequency []
      hnd hfreq hidf (not_le.mpr hpos) hden

/-- Witness for C3: the one-document corpus `a/a`; `df = 1`, `N = 1`, so
`idf(a) = ln((1 − 1 + 0.5)/(1 + 0.5) + 1) = ln(4/3)` and the average length
becomes `2.5`. -/
theorem consolidate_postcondition_witness :
    mapGet (consolidate defaultConfig
        (add defaultConfig emptyEngine repoSolo)).inverseDocumentFrequency
        "a" = some (Real.log (4/3)) ∧
    (consolidate defaultConfig
        (add defaultConfig emptyEngine repoSolo)).averageDocumentLength =
      5/2 := by
  have h := consolidate_postcondition defaultConfig
    (add defaultConfig emptyEngine repoSolo)
    (BuiltByAdds.add repoSolo BuiltByAdds.empty)
    (by rw [add_emptyEngine_repoSolo]; simp [soloAdded])
    (by norm_num [defaultConfig]) (by norm_num [defaultConfig])
    (by norm_num [defaultConfig])
    "a" ["a/a"]
    (by rw [add_emptyEngine_repoSolo]; simp [soloAdded, mapGet])
    "a/a" (RepositoryDocument.mk "a/a" repoSolo [("a", 5/2)] (5/2))
    (by rw [add_emptyEngine_repoSolo]; simp [soloAdded, mapGet])
    (5/2)
    (by simp [mapGet])
    (by norm_num)
  refine ⟨?_, ?_⟩
  · rw [h.1, add_emptyEngine_repoSolo]
    norm_num [soloAdded, defaultConfig]
  · rw [h.2.1, add_emptyEngine_repoSolo]
    norm_num [soloAdded, defaultConfig]

/-- C4 counterexample.  Field priority fails for general trios: with the
default weights, the term `term` occurs exactly once in `cexNameDoc`'s name,
once in `cexDescDoc`'s description and once in `cexOwnerDoc`'s owner, but
the name-match document is long (length 8.5 against 3.7 and 2.5), so length
normalization lets the description-match document `bo/nb` outrank it:
the top search result is `bo/nb`, not the name-match document. -/
theorem field_priority_cex :
    firstResultId
      (search defaultConfig
        (consolidate defaultConfig
          (add defaultConfig
            (add defaultConfig (add defaultConfig emptyEngine cexNameDoc)
              cexDescDoc) cexOwnerDoc))
        ["term"] none) = some "bo/nb" := by
  rw [add_trio_eq]
  have hne : trioAdded.documents ≠ [] := by simp [trioAdded]
  have hlen3 : trioAdded.documents.length = 3 := by rfl
  have havg : (consolidateStats defaultConfig
      trioAdded).averageDocumentLength = 49/10 := by
    rw [consolidateStats_avg]
    norm_num [trioAdded]
  have hpost : mapGet trioAdded.invertedIndex "term" =
      some ["ao/term p q r", "bo/nb", "term/nc"] := by
    simp [trioAdded, mapGet]
  have hg1 : mapGet trioAdded.documents "ao/term p q r" =
      some (RepositoryDocument.mk "ao/term p q r" cexNameDoc
        [("ao", 1/2), ("term", 2), ("p", 2), ("q", 2), ("r", 2)] (17/2)) := by
    simp [trioAdded, mapGet]
  have hg2 : mapGet trioAdded.documents "bo/nb" =
      some (RepositoryDocument.mk "bo/nb" cexDescDoc
        [("bo", 1/2), ("nb", 2), ("term", 6/5)] (37/10)) := by
    simp [trioAdded, mapGet]
  have hg3 : mapGet trioAdded.documents "term/nc" =
      some (RepositoryDocument.mk "term/nc" cexOwnerDoc
        [("term", 1/2), ("nc", 2)] (5/2)) := by
    simp [trioAdded, mapGet]
  have hs1 := consolidated_term_score trioAdded hne "term"
    ["ao/term p q r", "bo/nb", "term/nc"] hpost "ao/term p q r" _ hg1
    2 (by simp [mapGet]) (by simp +decide [mapKeys]) (by norm_num)
    (76/49) (by rw [havg]; norm_num [defaultConfig])
    (by norm_num [defaultConfig])
  have hs2 := consolidated_term_score trioAdded hne "term"
    ["ao/term p q r", "bo/nb", "term/nc"] hpost "bo/nb" _ hg2
    (6/5) (by simp [mapGet]) (by simp +decide [mapKeys]) (by norm_num)
    (40/49) (by rw [havg]; norm_num [defaultConfig])
    (by norm_num [defaultConfig])
  have hs3 := consolidated_term_score trioAdded hne "term"
    ["ao/term p q r", "bo/nb", "term/nc"] hpost "term/nc" _ hg3
    (1/2) (by simp [mapGet]) (by simp +decide [mapKeys]) (by norm_num)
    (31/49) (by rw [havg]; norm_num [defaultConfig])
    (by norm_num [defaultConfig])
  obtain ⟨d1', hg1', hv1⟩ := hs1
  obtain ⟨d2', hg2', hv2⟩ := hs2
  obtain ⟨d3', hg3', hv3⟩ := hs3
  have hlarg : (((trioAdded.documents.length : ℝ) -
      ((["ao/term p q r", "bo/nb", "term/nc"] : List String).length : ℝ)
        + 1/2) /
        (((["ao/term p q r", "bo/nb", "term/nc"] : List String).length : ℝ)
          + 1/2) + (defaultConfig.k : ℝ)) = 8/7 := by
    rw [hlen3]
    norm_num [defaultConfig]
  rw [hlarg] at hv1 hv2 hv3
  have hc1 : ((2 : ℝ) * ((defaultConfig.k1 : ℝ) + 1) /
      (2 + (defaultConfig.k1 : ℝ) * ((76/49 : ℚ) : ℝ)) +
      (defaultConfig.delta : ℝ)) = 141/86 := by
    norm_num [defaultConfig]
  have hc2 : ((6/5 : ℝ) * ((defaultConfig.k1 : ℝ) + 1) /
      (6/5 + (defaultConfig.k1 : ℝ) * ((40/49 : ℚ) : ℝ)) +
      (defaultConfig.delta : ℝ)) = 1523/890 := by
    norm_num [defaultConfig]
  have hc3 : ((1/2 : ℝ) * ((defaultConfig.k1 : ℝ) + 1) /
      (1/2 + (defaultConfig.k1 : ℝ) * ((31/49 : ℚ) : ℝ)) +
      (defaultConfig.delta : ℝ)) = 1695/1234 := by
    norm_num [defaultConfig]
  rw [hc1] at hv1
  rw [hc2] at hv2
  rw [hc3] at hv3
  have hL0 : (0 : ℝ) < Real.log (8/7) := Real.log_pos (by norm_num)
  have hne' : (consolidate defaultConfig trioAdded).documents.length ≠ 0 := by
    rw [consolidate_documents_length, hlen3]
    norm_num
  have hpost' : mapGet (consolidate defaultConfig
      trioAdded).invertedIndex "term" =
      some ["ao/term p q r", "bo/nb", "term/nc"] := by
    rw [consolidate_invertedIndex]; exact hpost
  obtain ⟨r1, rest, hok, hid⟩ := search_three_second
    (consolidate defaultConfig trioAdded) "term"
    "ao/term p q r" "bo/nb" "term/nc"
    (141/86 * Real.log (8/7)) (1523/890 * Real.log (8/7))
    (1695/1234 * Real.log (8/7)) d1' d2' d3'
    (by decide) (by decide) (by decide) hne' (by decide) hpost'
    hg1' hg2' hg3' hv1 hv2 hv3
    (not_le.mpr (mul_lt_mul_of_pos_right (by norm_num) hL0))
    (mul_le_mul_of_nonneg_right (by norm_num) (le_of_lt hL0))
    (mul_le_mul_of_nonneg_right (by norm_num) (le_of_lt hL0)) none
  rw [hok, firstResultId, hid]

/-- C4 amended.  Field priority restricted to equal-length trios: for every
engine whose three stored documents have equal weighted length, where the
query token carries raw weight `2` in the first document (one occurrence in
the name field, weight 2), `1.2` in the second (one occurrence in the
description) and `0.5` in the third (one occurrence in the owner), a search
for that token after consolidation ranks the name-match document first. -/
theorem field_priority_equal_lengths
    (st : EngineState) (t id1 id2 id3 : String)
    (d1 d2 d3 : RepositoryDocument) (len : ℚ)
    (hdocs : st.documents = [(id1, d1), (id2, d2), (id3, d3)])
    (h12 : id1 ≠ id2) (h13 : id1 ≠ id3) (h23 : id2 ≠ id3)
    (hpost : mapGet st.invertedIndex t = some [id1, id2, id3])
    (hf1 : mapGet d1.termFrequency t = some (2 : ℝ))
    (hf2 : mapGet d2.termFrequency t = some (6/5 : ℝ))
    (hf3 : mapGet d3.termFrequency t = some (1/2 : ℝ))
    (hnd1 : (mapKeys d1.termFrequency).Nodup)
    (hnd2 : (mapKeys d2.termFrequency).Nodup)
    (hnd3 : (mapKeys d3.termFrequency).Nodup)
    (hl1 : d1.length = len) (hl2 : d2.length = len) (hl3 : d3.length = len)
    (hlpos : 0 < len) (htot : st.totalCorpusLength = 3 * len)
    (hkw : normalizeKeywords [t] defaultConfig.maxKeywords = [t])
    (opts : Option SearchOptions) :
    ∃ r1 rest,
      search defaultConfig (consolidate defaultConfig st) [t] opts =
        Except.ok (r1 :: rest) ∧ r1.id = id1 := by
  have hne : st.documents ≠ [] := by rw [hdocs]; simp
  have hlen3 : st.documents.length = 3 := by rw [hdocs]; rfl
  have havg : (consolidateStats defaultConfig st).averageDocumentLength =
      len := by
    rw [consolidateStats_avg, hlen3, htot]
    norm_num
  have hg1 : mapGet st.documents id1 = some d1 := by
    rw [hdocs]; simp [mapGet]
  have hg2 : mapGet st.documents id2 = some d2 := by
    rw [hdocs]; simp [mapGet, h12]
  have hg3 : mapGet st.documents id3 = some d3 := by
    rw [hdocs]; simp [mapGet, h13, h23]
  have hnf : ∀ d : RepositoryDocument, d.length = len →
      1 - defaultConfig.b +
        defaultConfig.b *
          (d.length /
            (if (consolidateStats defaultConfig st).averageDocumentLength = 0
             then 1
             else (consolidateStats defaultConfig
                st).averageDocumentLength)) = 1 := by
    intro d hd
    rw [havg, hd, if_neg (ne_of_gt hlpos), div_self (ne_of_gt hlpos)]
    norm_num [defaultConfig]
  have hs1 := consolidated_term_score st hne t [id1, id2, id3] hpost id1 d1
    hg1 2 hf1 hnd1 (by norm_num) 1 (hnf d1 hl1)
    (by norm_num [defaultConfig])
  have hs2 := consolidated_term_score st hne t [id1, id2, id3] hpost id2 d2
    hg2 (6/5) hf2 hnd2 (by norm_num) 1 (hnf d2 hl2)
    (by norm_num [defaultConfig])
  have hs3 := consolidated_term_score st hne t [id1, id2, id3] hpost id3 d3
    hg3 (1/2) hf3 hnd3 (by norm_num) 1 (hnf d3 hl3)
    (by norm_num [defaultConfig])
  obtain ⟨d1', hg1', hv1⟩ := hs1
  obtain ⟨d2', hg2', hv2⟩ := hs2
  obtain ⟨d3', hg3', hv3⟩ := hs3
  have hlarg : (((st.documents.length : ℝ) -
      (([id1, id2, id3] : List String).length : ℝ) + 1/2) /
        ((([id1, id2, id3] : List String).length : ℝ) + 1/2) +
      (defaultConfig.k : ℝ)) = 8/7 := by
    rw [hlen3]
    norm_num [defaultConfig]
  rw [hlarg] at hv1 hv2 hv3
  have hc1 : ((2 : ℝ) * ((defaultConfig.k1 : ℝ) + 1) /
      (2 + (defaultConfig.k1 : ℝ) * ((1 : ℚ) : ℝ)) +
      (defaultConfig.delta : ℝ)) = 15/8 := by
    norm_num [defaultConfig]
  have hc2 : ((6/5 : ℝ) * ((defaultConfig.k1 : ℝ) + 1) /
      (6/5 + (defaultConfig.k1 : ℝ) * ((1 : ℚ) : ℝ)) +
      (defaultConfig.delta : ℝ)) = 8/5 := by
    norm_num [defaultConfig]
  have hc3 : ((1/2 : ℝ) * ((defaultConfig.k1 : ℝ) + 1) /
      (1/2 + (defaultConfig.k1 : ℝ) * ((1 : ℚ) : ℝ)) +
      (defaultConfig.delta : ℝ)) = 39/34 := by
    norm_num [defaultConfig]
  rw [hc1] at hv1
  rw [hc2] at hv2
  rw [hc3] at hv3
  have hL0 : (0 : ℝ) < Real.log (8/7) := Real.log_pos (by norm_num)
  have hne' : (consolidate defaultConfig st).documents.length ≠ 0 := by
    rw [consolidate_documents_length, hlen3]
    norm_num
  have hpost' : mapGet (consolidate defaultConfig st).invertedIndex t =
      some [id1, id2, id3] := by
    rw [consolidate_invertedIndex]; exact hpost
  exact search_three_first (consolidate defaultConfig st) t id1 id2 id3
    (15/8 * Real.log (8/7)) (8/5 * Real.log (8/7))
    (39/34 * Real.log (8/7)) d1' d2' d3' h12 h13 h23 hne' hkw hpost'
    hg1' hg2' hg3' hv1 hv2 hv3
    (mul_le_mul_of_nonneg_right (by norm_num) (le_of_lt hL0))
    (mul_le_mul_of_nonneg_right (by norm_num) (le_of_lt hL0)) opts

/-- Witness for the amended C4: the equal-length trio (each document has
weighted length `3.7`); the name-match document `ao/term` comes first. -/
theorem field_priority_equal_lengths_witness :
    firstResultId
      (search defaultConfig (consolidate defaultConfig eqTrioAdded)
        ["term"] none) = some "ao/term" := by
  obtain ⟨r1, rest, hok, hid⟩ := field_priority_equal_lengths eqTrioAdded
    "term" "ao/term" "bo/nb" "term/nc"
    (RepositoryDocument.mk "ao/term" eqNameDoc
      [("ao", 1/2), ("term", 2), ("fill", 6/5)] (37/10))
    (RepositoryDocument.mk "bo/nb" cexDescDoc
      [("bo", 1/2), ("nb", 2), ("term", 6/5)] (37/10))
    (RepositoryDocument.mk "term/nc" eqOwnerDoc
      [("term", 1/2), ("nc", 2), ("pad", 6/5)] (37/10))
    (37/10)
    rfl (by decide) (by decide) (by decide)
    (by simp [eqTrioAdded, mapGet])
    (by simp [mapGet]) (by simp [mapGet]) (by simp [mapGet])
    (by simp +decide [mapKeys]) (by simp +decide [mapKeys])
    (by simp +decide [mapKeys])
    rfl rfl rfl (by norm_num) (by norm_num [eqTrioAdded]) (by decide) none
  rw [hok, firstResultId, hid]

/-- C5.  Ingestion is idempotent per id: `add` of a repository whose id is
already present leaves the entire engine state unchanged (the first-added
record wins). -/
theorem add_existing_id_noop (cfg : EngineConfig) (st : EngineState)
    (r : StarredRepository)
    (h : mapHas st.documents (buildRepositoryId r) = true) :
    add cfg st r = st := by
  rw [add_eq_pipeline, if_pos h]

/-- Witness for C5: `add(r); add(r)` on a fresh engine, the second `add`
hitting an already-present id and leaving the (size-1) state unchanged. -/
theorem add_existing_id_noop_witness :
    mapHas (add defaultConfig emptyEngine repoSolo).documents
        (buildRepositoryId repoSolo) = true ∧
    add defaultConfig (add defaultConfig emptyEngine repoSolo) repoSolo =
      add defaultConfig emptyEngine repoSolo :=
  ⟨add_mapHas_self defaultConfig emptyEngine repoSolo,
    add_existing_id_noop defaultConfig (add defaultConfig emptyEngine repoSolo)
      repoSolo (add_mapHas_self defaultConfig emptyEngine repoSolo)⟩

/-- C6.  Monotonic corpus growth: whatever mixture of further `add` and
`consolidate` calls leads from one engine state to another, the number of
documents a search returns never decreases (it is the number of matching
stored documents capped by the limit, and both postings sets and the
document store only grow). -/
theorem search_count_monotone (cfg : EngineConfig) {s s' : EngineState}
    (h : EngineReaches cfg s s') (kws : List String)
    (opts : Option SearchOptions) :
    okLength (search cfg s kws opts) ≤ okLength (search cfg s' kws opts) := by
  obtain ⟨hp, hd, hl⟩ := engineReaches_mono h
  by_cases hd0 : s.documents.length = 0
  · rw [search_empty_docs cfg s (List.length_eq_zero.mp hd0) kws opts]
    exact Nat.zero_le _
  · by_cases hkw : normalizeKeywords kws cfg.maxKeywords = []
    · rw [search_empty_keywords cfg s kws opts hkw,
        search_empty_keywords cfg s' kws opts hkw]
    · have hd0' : s'.documents.length ≠ 0 := by omega
      rw [search_okLength cfg s kws opts hd0 hkw,
        search_okLength cfg s' kws opts hd0' hkw]
      exact min_le_min le_rfl
        (accumulateScores_keys_length_mono s s' _ hp hd)

/-- Witness for C6: one consolidated one-document engine, then a second
document is added and consolidated again; the `a`-search result count does
not decrease. -/
theorem search_count_monotone_witness :
    EngineReaches defaultConfig
        (consolidate defaultConfig (add defaultConfig emptyEngine repoSolo))
        (consolidate defaultConfig
          (add defaultConfig
            (consolidate defaultConfig
              (add defaultConfig emptyEngine repoSolo))
            repoOther)) ∧
    okLength
        (search defaultConfig
          (consolidate defaultConfig (add defaultConfig emptyEngine repoSolo))
          ["a"] none) ≤
      okLength
        (search defaultConfig
          (consolidate defaultConfig
            (add defaultConfig
              (consolidate defaultConfig
                (add defaultConfig emptyEngine repoSolo))
              repoOther))
          ["a"] none) :=
  ⟨EngineReaches.tail
      (EngineReaches.tail (EngineReaches.refl _)
        (EngineStep.add _ repoOther))
      (EngineStep.consolidate _),
    search_count_monotone defaultConfig
      (EngineReaches.tail
        (EngineReaches.tail (EngineReaches.refl _)
          (EngineStep.add _ repoOther))
        (EngineStep.consolidate _))
      ["a"] none⟩

/-- C7.  Keyword repetition does not amplify scores: searching a keyword
repeated `n ≥ 1` times returns exactly the same results (same documents,
same scores) as searching it once, because normalization truncates and then
deduplicates. -/
theorem search_keyword_repetition (cfg : EngineConfig) (st : EngineState)
    (kw : String) (opts : Option SearchOptions) (n : Nat) (hn : 1 ≤ n) :
    search cfg st (List.replicate n kw) opts = search cfg st [kw] opts := by
  rw [search, search, normalizeKeywords_replicate kw cfg.maxKeywords hn]

/-- Witness for C7: `search(["test","test","test"])` equals
`search(["test"])` on the fresh engine. -/
theorem search_keyword_repetition_witness :
    1 ≤ 3 ∧
      search defaultConfig emptyEngine ["test", "test", "test"] none =
        search defaultConfig emptyEngine ["test"] none :=
  ⟨by decide,
    search_keyword_repetition defaultConfig emptyEngine "test" none 3
      (by decide)⟩

/-- C8.  The fatal invariant-violation branch is unreachable: for every
engine state whatsoever (in particular every state reachable through the
public operations `reset`/`add`/`consolidate`/`search`), `search` returns
a result list and never the "Invariant violated: missing repository
document" error, because every ranked id was collected from a successful
document-store lookup. -/
theorem search_never_throws (cfg : EngineConfig) (st : EngineState)
    (kws : List String) (opts : Option SearchOptions) :
    ∃ results, search cfg st kws opts = Except.ok results := by
  by_cases hd : st.documents.length = 0
  · exact ⟨[], search_empty_docs cfg st (List.length_eq_zero.mp hd) kws opts⟩
  · by_cases hkw : normalizeKeywords kws cfg.maxKeywords = []
    · exact ⟨[], search_empty_keywords cfg st kws opts hkw⟩
    · obtain ⟨rs, hok, _⟩ := search_eq_ok cfg st kws opts hd hkw
      exact ⟨rs, hok⟩

/-- C9.  `search` is read-only: the state-threaded translation of the
method returns the engine state unchanged, and its result coincides with
the pure `search`; score and match accumulation happen only in call-local
maps. -/
theorem searchM_readonly (cfg : EngineConfig) (st : EngineState)
    (kws : List String) (opts : Option SearchOptions) :
    (searchM cfg st kws opts).2 = st ∧
    (searchM cfg st kws opts).1 = search cfg st kws opts := by
  rw [searchM, search]
  by_cases hd : st.documents.length = 0
  · rw [if_pos hd, if_pos hd]; exact ⟨rfl, rfl⟩
  · rw [if_neg hd, if_neg hd]
    by_cases hkw : normalizeKeywords kws cfg.maxKeywords = []
    · rw [if_pos hkw, if_pos hkw]; exact ⟨rfl, rfl⟩
    · rw [if_neg hkw, if_neg hkw, accumulateScoresM_eq]
      rcases hacc : accumulateScores st (normalizeKeywords kws cfg.maxKeywords)
          ([], []) with ⟨s, m⟩
      exact ⟨rfl, rfl⟩

/-- C10.  The two private ingestion helpers are equivalent: `ingestText` is
exactly `ingestField` with no token limit, so owner/name ingestion could go
through `ingestField` without behavior change. -/
theorem ingest_helpers_equivalent (st : EngineState)
    (doc : RepositoryDocument) (rawValue : String) (weight : ℚ) :
    ingestText st doc rawValue weight =
      ingestField st doc rawValue weight none :=
  ingestText_eq_ingestField st doc rawValue weight

end RepoSearch
